import Mathlib

/-!
Verification development for the ST-Manager core services
(`core/services/wi_entry_history_service.py` and
`core/services/backup_service.py`), shallowly embedded in Lean 4.

Modelling conventions:
* Python JSON-style values are the inductive `JValue`; Python dicts are
  association lists `List (String × JValue)` in insertion order (Python
  dicts preserve insertion order, so field order is observable).
* `str.strip()` is `pyStrip` (ASCII whitespace, matching the characters
  Python strips for ASCII input).
* `json.dumps(..., sort_keys=True, separators=(",", ":"))` is
  `serialize (canon v)`.
* The SHA-1 digest in `_snapshot_hash` is modelled by the serialized
  canonical string itself: every theorem below uses only that equal
  inputs give equal digests, never any property of the compression
  function.
* `uuid.uuid4()` tokens are modelled by a token source `gen : Nat → String`
  together with explicit freshness hypotheses.
* The sqlite table `wi_entry_history` is a list of rows plus the
  AUTOINCREMENT counter; `ORDER BY created_at DESC, id DESC` is insertion
  sort by the `newerEq` relation.
-/

/-- ASCII whitespace recognised by Python `str.strip()`:
space, tab, newline, carriage return, vertical tab, form feed. -/
def isPySpace (c : Char) : Bool :=
  c.toNat == 32 || c.toNat == 9 || c.toNat == 10 || c.toNat == 13 ||
  c.toNat == 11 || c.toNat == 12

/-- Strip leading and trailing whitespace from a character list. -/
def pyStripList (l : List Char) : List Char :=
  ((l.dropWhile isPySpace).reverse.dropWhile isPySpace).reverse

/-- Python `str.strip()` (no arguments). -/
def pyStrip (s : String) : String :=
  ⟨pyStripList s.data⟩

/-- JSON-style Python value (the payloads handled by the history service
are produced by `json.loads`, so numbers are modelled by integers). -/
inductive JValue where
  | null : JValue
  | bool (b : Bool) : JValue
  | num (n : Int) : JValue
  | str (s : String) : JValue
  | arr (xs : List JValue) : JValue
  | obj (fields : List (String × JValue)) : JValue

mutual

/-- Boolean equality on JSON values (Python `==` on JSON-style data). -/
def JValue.beq : JValue → JValue → Bool
  | .null, .null => true
  | .bool a, .bool b => a == b
  | .num a, .num b => a == b
  | .str a, .str b => a == b
  | .arr xs, .arr ys => JValue.beqList xs ys
  | .obj fs, .obj gs => JValue.beqPairs fs gs
  | _, _ => false
termination_by structural v => v

/-- Elementwise `JValue.beq` on lists. -/
def JValue.beqList : List JValue → List JValue → Bool
  | [], [] => true
  | x :: xs, y :: ys => JValue.beq x y && JValue.beqList xs ys
  | _, _ => false
termination_by structural l => l

/-- Elementwise `JValue.beq` on key-value pair lists. -/
def JValue.beqPairs : List (String × JValue) → List (String × JValue) → Bool
  | [], [] => true
  | (k, v) :: xs, (l, w) :: ys => k == l && JValue.beq v w && JValue.beqPairs xs ys
  | _, _ => false
termination_by structural l => l

end

mutual

/-- Soundness of `JValue.beq`. -/
def JValue.eq_of_beq : ∀ {a b : JValue}, JValue.beq a b = true → a = b
  | .null, .null, _ => rfl
  | .bool _, .bool _, h => by simp only [JValue.beq, beq_iff_eq] at h; simp [h]
  | .num _, .num _, h => by simp only [JValue.beq, beq_iff_eq] at h; simp [h]
  | .str _, .str _, h => by simp only [JValue.beq, beq_iff_eq] at h; simp [h]
  | .arr _, .arr _, h => by
      simp only [JValue.beq] at h
      exact congrArg JValue.arr (JValue.eqList_of_beq h)
  | .obj _, .obj _, h => by
      simp only [JValue.beq] at h
      exact congrArg JValue.obj (JValue.eqPairs_of_beq h)
termination_by structural a => a

/-- Soundness of `JValue.beqList`. -/
def JValue.eqList_of_beq : ∀ {xs ys : List JValue}, JValue.beqList xs ys = true → xs = ys
  | [], [], _ => rfl
  | _ :: _, _ :: _, h => by
      simp only [JValue.beqList, Bool.and_eq_true] at h
      rw [JValue.eq_of_beq h.1, JValue.eqList_of_beq h.2]
termination_by structural l => l

/-- Soundness of `JValue.beqPairs`. -/
def JValue.eqPairs_of_beq :
    ∀ {xs ys : List (String × JValue)}, JValue.beqPairs xs ys = true → xs = ys
  | [], [], _ => rfl
  | (_, _) :: _, (_, _) :: _, h => by
      simp only [JValue.beqPairs, Bool.and_eq_true, beq_iff_eq] at h
      rw [h.1.1, JValue.eq_of_beq h.1.2, JValue.eqPairs_of_beq h.2]
termination_by structural l => l

end

mutual

/-- Reflexivity of `JValue.beq`. -/
def JValue.beq_refl : ∀ a : JValue, JValue.beq a a = true
  | .null => rfl
  | .bool a => by simp [JValue.beq]
  | .num a => by simp [JValue.beq]
  | .str a => by simp [JValue.beq]
  | .arr xs => by simp only [JValue.beq]; exact JValue.beqList_refl xs
  | .obj fs => by simp only [JValue.beq]; exact JValue.beqPairs_refl fs
termination_by structural a => a

/-- Reflexivity of `JValue.beqList`. -/
def JValue.beqList_refl : ∀ xs : List JValue, JValue.beqList xs xs = true
  | [] => rfl
  | x :: xs => by
      simp only [JValue.beqList, Bool.and_eq_true]
      exact ⟨JValue.beq_refl x, JValue.beqList_refl xs⟩
termination_by structural l => l

/-- Reflexivity of `JValue.beqPairs`. -/
def JValue.beqPairs_refl : ∀ xs : List (String × JValue), JValue.beqPairs xs xs = true
  | [] => rfl
  | (k, v) :: xs => by
      simp only [JValue.beqPairs, Bool.and_eq_true, beq_self_eq_true, true_and]
      exact ⟨JValue.beq_refl v, JValue.beqPairs_refl xs⟩
termination_by structural l => l

end

instance : DecidableEq JValue := fun a b =>
  if h : JValue.beq a b = true then isTrue (JValue.eq_of_beq h)
  else isFalse (fun hh => h (hh ▸ JValue.beq_refl a))

/-- A world-info entry: a Python dict in insertion order. -/
abbrev Entry := List (String × JValue)

/-- Python dict lookup `d.get(k)` (first binding wins; a dict cannot
hold duplicate keys). -/
def assocGet {α : Type} (m : List (String × α)) (k : String) : Option α :=
  (m.find? (fun p => p.1 == k)).map (fun p => p.2)

/-- Python dict store `d[k] = v`: update in place when the key is present
(keeping its position), otherwise append at the end. -/
def assocSet {α : Type} (m : List (String × α)) (k : String) (v : α) :
    List (String × α) :=
  if (m.find? (fun p => p.1 == k)).isSome then
    m.map (fun p => if p.1 == k then (k, v) else p)
  else
    m ++ [(k, v)]

/-- Python truthiness of a JSON value (`bool(v)`). -/
def jTruthy : JValue → Bool
  | .null => false
  | .bool b => b
  | .num n => n != 0
  | .str s => s != ""
  | .arr xs => !xs.isEmpty
  | .obj fs => !fs.isEmpty

/-- JSON string escaping used by `json.dumps(..., ensure_ascii=False)`;
`\x7b` and `\x7d` below are the brace characters. -/
def escChar (c : Char) : String :=
  if c.toNat == 34 then "\\\""
  else if c.toNat == 92 then "\\\\"
  else if c.toNat == 10 then "\\n"
  else if c.toNat == 9 then "\\t"
  else if c.toNat == 13 then "\\r"
  else if c.toNat < 32 then
    "\\u00" ++ String.mk [Char.ofNat (48 + c.toNat / 16),
      Char.ofNat (if c.toNat % 16 < 10 then 48 + c.toNat % 16 else 87 + c.toNat % 16)]
  else String.mk [c]

/-- Serialize a JSON string literal. -/
def serializeStr (s : String) : String :=
  "\"" ++ String.join (s.data.map escChar) ++ "\""

mutual

/-- `json.dumps(v, ensure_ascii=False, separators=(",", ":"))`, honouring
insertion order of object fields. -/
def serialize : JValue → String
  | .null => "null"
  | .bool true => "true"
  | .bool false => "false"
  | .num n => toString n
  | .str s => serializeStr s
  | .arr xs => "[" ++ serializeItems xs ++ "]"
  | .obj fs => "\x7b" ++ serializeFields fs ++ "\x7d"
termination_by structural v => v

/-- Comma-separated serialization of array items. -/
def serializeItems : List JValue → String
  | [] => ""
  | [x] => serialize x
  | x :: xs => serialize x ++ "," ++ serializeItems xs
termination_by structural l => l

/-- Comma-separated serialization of object fields. -/
def serializeFields : List (String × JValue) → String
  | [] => ""
  | [(k, v)] => serializeStr k ++ ":" ++ serialize v
  | (k, v) :: fs => serializeStr k ++ ":" ++ serialize v ++ "," ++ serializeFields fs
termination_by structural l => l

end

/-- Lexicographic comparison of character lists by Unicode code point —
Python string ordering, used by `sort_keys=True`. -/
def charListLe : List Char → List Char → Bool
  | [], _ => true
  | _ :: _, [] => false
  | a :: as, b :: bs =>
      if a.toNat < b.toNat then true
      else if b.toNat < a.toNat then false
      else charListLe as bs

/-- String ordering by code points (Python `<=` on strings). -/
def strLe (a b : String) : Bool := charListLe a.data b.data

/-- Totality of `charListLe`. -/
def charListLe_total : ∀ a b : List Char, charListLe a b = true ∨ charListLe b a = true
  | [], _ => Or.inl rfl
  | _ :: _, [] => Or.inr rfl
  | a :: as, b :: bs => by
      by_cases h₁ : a.toNat < b.toNat
      · exact Or.inl (by simp [charListLe, h₁])
      · by_cases h₂ : b.toNat < a.toNat
        · exact Or.inr (by simp [charListLe, h₂, h₁])
        · rcases charListLe_total as bs with h | h
          · exact Or.inl (by simp [charListLe, h₁, h₂, h])
          · exact Or.inr (by simp [charListLe, h₁, h₂, h])

/-- Transitivity of `charListLe`. -/
def charListLe_trans :
    ∀ a b c : List Char, charListLe a b = true → charListLe b c = true →
      charListLe a c = true
  | [], _, _, _, _ => rfl
  | _ :: _, [], _, h, _ => by simp [charListLe] at h
  | _ :: _, _ :: _, [], _, h => by simp [charListLe] at h
  | a :: as, b :: bs, c :: cs, h₁, h₂ => by
      simp only [charListLe] at h₁ h₂ ⊢
      split at h₁
      · rename_i hab
        split at h₂
        · rename_i hbc; simp [Nat.lt_trans hab hbc]
        · split at h₂
          · simp at h₂
          · rename_i hcb hbc
            have hbc' : b.toNat = c.toNat := Nat.le_antisymm (Nat.le_of_not_lt hbc) (Nat.le_of_not_lt hcb)
            simp [hbc' ▸ hab]
      · split at h₁
        · simp at h₁
        · rename_i hba hab
          have hab' : a.toNat = b.toNat := Nat.le_antisymm (Nat.le_of_not_lt hab) (Nat.le_of_not_lt hba)
          split at h₂
          · rename_i hbc; simp [hab' ▸ hbc]
          · split at h₂
            · simp at h₂
            · rename_i hcb hbc
              have hbc' : b.toNat = c.toNat := Nat.le_antisymm (Nat.le_of_not_lt hbc) (Nat.le_of_not_lt hcb)
              rw [if_neg (by omega), if_neg (by omega)]
              exact charListLe_trans as bs cs h₁ h₂

/-- Antisymmetry of `charListLe`. -/
def charListLe_antisymm :
    ∀ a b : List Char, charListLe a b = true → charListLe b a = true → a = b
  | [], [], _, _ => rfl
  | [], _ :: _, _, h => by simp [charListLe] at h
  | _ :: _, [], h, _ => by simp [charListLe] at h
  | a :: as, b :: bs, h₁, h₂ => by
      simp only [charListLe] at h₁ h₂
      by_cases hab : a.toNat < b.toNat
      · rw [if_neg (by omega), if_pos hab] at h₂; simp at h₂
      · by_cases hba : b.toNat < a.toNat
        · rw [if_neg hab, if_pos hba] at h₁; simp at h₁
        · rw [if_neg hab, if_neg hba] at h₁
          rw [if_neg hba, if_neg hab] at h₂
          have h3 : a.toNat = b.toNat := Nat.le_antisymm (Nat.le_of_not_lt hba) (Nat.le_of_not_lt hab)
          have : a = b := Char.ofNat_toNat a ▸ Char.ofNat_toNat b ▸ congrArg Char.ofNat h3
          rw [this, charListLe_antisymm as bs h₁ h₂]

/-- Field ordering used by `sort_keys=True`: compare object keys. -/
def keyLe (a b : String × JValue) : Prop := strLe a.1 b.1 = true

instance : DecidableRel keyLe := fun a b => inferInstanceAs (Decidable (strLe a.1 b.1 = true))

instance : IsTotal (String × JValue) keyLe := ⟨fun a b => charListLe_total a.1.data b.1.data⟩

instance : IsTrans (String × JValue) keyLe :=
  ⟨fun a b c h₁ h₂ => charListLe_trans a.1.data b.1.data c.1.data h₁ h₂⟩

/-- Sort object fields by key (the effect of `sort_keys=True`). -/
def sortPairs (fs : List (String × JValue)) : List (String × JValue) :=
  List.insertionSort keyLe fs

mutual

/-- Recursively sort all object fields by key. `serialize (canon v)` is
`json.dumps(v, ensure_ascii=False, sort_keys=True, separators=(",", ":"))`. -/
def canon : JValue → JValue
  | .null => .null
  | .bool b => .bool b
  | .num n => .num n
  | .str s => .str s
  | .arr xs => .arr (canonList xs)
  | .obj fs => .obj (sortPairs (canonPairs fs))
termination_by structural v => v

/-- `canon` on each element of a list. -/
def canonList : List JValue → List JValue
  | [] => []
  | x :: xs => canon x :: canonList xs
termination_by structural l => l

/-- `canon` on every value of a key-value pair list. -/
def canonPairs : List (String × JValue) → List (String × JValue)
  | [] => []
  | (k, v) :: fs => (k, canon v) :: canonPairs fs
termination_by structural l => l

end

/-- The entry-identity field name `ENTRY_UID_FIELD`. -/
def ENTRY_UID_FIELD : String := "st_manager_uid"

/-- Python `str(v)` for the scalar values that can sit in a uid field.
Containers use their JSON serialization as an approximation of `repr`;
no theorem below depends on the container cases. -/
def pyStr : JValue → String
  | .null => "None"
  | .bool true => "True"
  | .bool false => "False"
  | .num n => toString n
  | .str s => s
  | .arr xs => serialize (.arr xs)
  | .obj fs => serialize (.obj fs)

/-- `str(x or "")` for a JSON value: falsy values collapse to the empty
string before `str` is applied. -/
def pyStrOrEmpty (v : JValue) : String :=
  if jTruthy v then pyStr v else ""

/-- `str(entry.get(ENTRY_UID_FIELD, "") or "").strip()` — the uid string
of an entry as computed throughout `wi_entry_history_service.py`. -/
def entryUidStr (e : Entry) : String :=
  pyStrip (pyStrOrEmpty ((assocGet e ENTRY_UID_FIELD).getD (.str "")))

/-- `_snapshot_entry(entry, forced_uid)`: deep copy (identity on JSON
values), pop the churn fields `id`, `uid`, `displayIndex`, then force the
entry-identity field when `forced_uid or snap.get(...)` is non-empty. -/
def snapshotEntry (e : Entry) (forced_uid : String) : Entry :=
  let snap := e.filter (fun p => p.1 != "id" && p.1 != "uid" && p.1 != "displayIndex")
  let uidVal := pyStrip (if forced_uid != "" then forced_uid
    else pyStrOrEmpty ((assocGet snap ENTRY_UID_FIELD).getD (.str "")))
  if uidVal != "" then assocSet snap ENTRY_UID_FIELD (.str uidVal) else snap

/-- `_snapshot_hash(snapshot)`: SHA-1 of the key-sorted compact JSON
serialization, with the digest modelled by the serialized string. -/
def snapshotHash (snapshot : Entry) : String :=
  serialize (canon (.obj snapshot))

/-- View a JSON value as an entry when it is a dict. -/
def toEntry : JValue → Option Entry
  | .obj fs => some fs
  | _ => none

/-- The dict items of a list, in order (`isinstance(e, dict)` filter). -/
def dictEntries (items : List JValue) : List Entry := items.filterMap toEntry

/-- `_get_entries_ref(book_data)`: a list document yields its dict items;
a dict document yields the dict items of its `entries` field (list or
dict-valued); anything else yields no entries. -/
def getEntriesRef : JValue → List Entry
  | .arr items => dictEntries items
  | .obj fs =>
      match assocGet fs "entries" with
      | some (.arr items) => dictEntries items
      | some (.obj efs) => dictEntries (efs.map (fun p => p.2))
      | _ => []
  | _ => []

/-- One iteration of the `ensure_entry_uids` loop: regenerate the uid when
blank or already seen (consuming token `gen k`), rewrite the field when
its stored value differs from the stripped uid string, else leave the
entry alone. Returns entry, seen set, next token index, changed flag. -/
def ensureEntry (gen : Nat → String) (e : Entry) (used : List String) (k : Nat) :
    Entry × List String × Nat × Bool :=
  let uid := entryUidStr e
  if uid = "" ∨ uid ∈ used then
    let t := gen k
    (assocSet e ENTRY_UID_FIELD (.str t), t :: used, k + 1, true)
  else if assocGet e ENTRY_UID_FIELD = some (.str uid) then
    (e, uid :: used, k, false)
  else
    (assocSet e ENTRY_UID_FIELD (.str uid), uid :: used, k, true)

/-- The `ensure_entry_uids` loop over the normalized entry sequence;
non-dict items pass through untouched. -/
def ensureItems (gen : Nat → String) :
    List JValue → List String → Nat → List JValue × List String × Nat × Bool
  | [], used, k => ([], used, k, false)
  | v :: rest, used, k =>
      match toEntry v with
      | some e =>
          let (e', used', k', ch1) := ensureEntry gen e used k
          let (rest', used'', k'', ch2) := ensureItems gen rest used' k'
          (.obj e' :: rest', used'', k'', ch1 || ch2)
      | none =>
          let (rest', used'', k'', ch2) := ensureItems gen rest used k
          (v :: rest', used'', k'', ch2)

/-- `ensure_entry_uids(book_data)`, written functionally: the in-place
mutation of entries is a write-back of the processed entry sequence. For
a dict of entries, `entries.values()` is processed in order and each value
is written back under its key. -/
def ensureEntryUids (gen : Nat → String) (book : JValue) : JValue × Bool :=
  match book with
  | .arr items =>
      let (items', _, _, ch) := ensureItems gen items [] 0
      (.arr items', ch)
  | .obj fs =>
      match assocGet fs "entries" with
      | some (.arr items) =>
          let (items', _, _, ch) := ensureItems gen items [] 0
          (.obj (assocSet fs "entries" (.arr items')), ch)
      | some (.obj efs) =>
          let (vals', _, _, ch) := ensureItems gen (efs.map (fun p => p.2)) [] 0
          (.obj (assocSet fs "entries" (.obj ((efs.map (fun p => p.1)).zip vals'))), ch)
      | _ => (book, false)
  | _ => (book, false)

/-- A record produced by `collect_previous_versions`:
`{"entry_uid": ..., "snapshot": ...}`. -/
structure PrevRecord where
  entry_uid : String
  snapshot : Entry
deriving DecidableEq

/-- The `old_by_uid` dict: first old entry wins for every non-blank uid. -/
def buildOldByUid (olds : List Entry) : List (String × Entry) :=
  olds.foldl (fun acc e =>
    let uid := entryUidStr e
    if uid ≠ "" ∧ (assocGet acc uid).isNone then acc ++ [(uid, e)] else acc) []

/-- Matching an old entry for a new entry with non-blank uid at index
`idx`: exact uid match in `old_by_uid`, else the positional fallback,
taken only when the old entry at the same index has no uid. -/
def matchedOld (olds : List Entry) (dict : List (String × Entry)) (idx : Nat) (uid : String) :
    Option Entry :=
  match assocGet dict uid with
  | some oe => some oe
  | none =>
      match olds[idx]? with
      | some fb => if entryUidStr fb = "" then some fb else none
      | none => none

/-- The body of the `collect_previous_versions` loop for one new entry. -/
def collectStep (olds : List Entry) (dict : List (String × Entry)) (idx : Nat) (ne : Entry) :
    Option PrevRecord :=
  let uid := entryUidStr ne
  if uid = "" then none
  else
    match matchedOld olds dict idx uid with
    | none => none
    | some oe =>
        let os := snapshotEntry oe uid
        let ns := snapshotEntry ne uid
        if snapshotHash os ≠ snapshotHash ns then some ⟨uid, os⟩ else none

/-- The indexed loop of `collect_previous_versions`. -/
def collectLoop (olds : List Entry) (dict : List (String × Entry)) :
    Nat → List Entry → List PrevRecord
  | _, [] => []
  | idx, ne :: rest =>
      match collectStep olds dict idx ne with
      | some r => r :: collectLoop olds dict (idx + 1) rest
      | none => collectLoop olds dict (idx + 1) rest

/-- `collect_previous_versions(old_book, new_book)`. -/
def collectPreviousVersions (old_book new_book : JValue) : List PrevRecord :=
  let old_entries := getEntriesRef old_book
  let new_entries := getEntriesRef new_book
  if old_entries.isEmpty || new_entries.isEmpty then []
  else collectLoop old_entries (buildOldByUid old_entries) 0 new_entries

/-- A row of the `wi_entry_history` table. `snapshot` stands for the
`snapshot_json` column (the JSON round-trip is the identity on the model). -/
structure HistoryRow where
  id : Nat
  scope_key : String
  entry_uid : String
  snapshot : Entry
  snapshot_hash : String
  created_at : Nat
deriving DecidableEq

/-- The embedded store: the table rows plus the AUTOINCREMENT counter. -/
structure HistoryStore where
  rows : List HistoryRow
  next_id : Nat
deriving DecidableEq

/-- A fresh store (sqlite AUTOINCREMENT starts at 1). -/
def emptyStore : HistoryStore := ⟨[], 1⟩

/-- Well-formedness maintained by the store: distinct rows, ids below the
counter. -/
def storeWF (S : HistoryStore) : Prop :=
  S.rows.Nodup ∧ ∀ r ∈ S.rows, r.id < S.next_id

/-- The `WHERE scope_key = ? AND entry_uid = ?` filter. -/
def matchP (sk uid : String) (r : HistoryRow) : Bool :=
  r.scope_key == sk && r.entry_uid == uid

/-- All rows of one `(scope_key, entry_uid)` pair. -/
def pairRows (S : HistoryStore) (sk uid : String) : List HistoryRow :=
  S.rows.filter (matchP sk uid)

/-- `ORDER BY created_at DESC, id DESC`: row `a` sorts no later than `b`. -/
def newerEq (a b : HistoryRow) : Prop :=
  b.created_at < a.created_at ∨ (b.created_at = a.created_at ∧ b.id ≤ a.id)

instance : DecidableRel newerEq := fun a b =>
  inferInstanceAs (Decidable (b.created_at < a.created_at ∨ (b.created_at = a.created_at ∧ b.id ≤ a.id)))

/-- Sort rows newest first. -/
def sortNewest (l : List HistoryRow) : List HistoryRow := List.insertionSort newerEq l

/-- `SELECT ... ORDER BY created_at DESC, id DESC LIMIT 1` for a pair. -/
def mostRecent (S : HistoryStore) (sk uid : String) : Option HistoryRow :=
  (sortNewest (pairRows S sk uid)).head?

/-- `DEFAULT_HISTORY_LIMIT`. -/
def DEFAULT_HISTORY_LIMIT : Int := 7

/-- `MAX_HISTORY_LIMIT`. -/
def MAX_HISTORY_LIMIT : Int := 100

/-- `get_history_limit(limit)`. The argument models the outcome of
`int(limit)`: `some n` when the conversion succeeds, `none` when it
raises and the default applies. (`limit=None` first loads the configured
value; the caller passes that value here.) -/
def getHistoryLimit (limitConv : Option Int) : Nat :=
  (max 1 (min (limitConv.getD DEFAULT_HISTORY_LIMIT) MAX_HISTORY_LIMIT)).toNat

/-- ASCII lowercasing (Python `str.lower()` for ASCII input). -/
def pyLowerChar (c : Char) : Char :=
  if 65 ≤ c.toNat ∧ c.toNat ≤ 90 then Char.ofNat (c.toNat + 32) else c

/-- Python `str.lower()`. -/
def pyLower (s : String) : String := ⟨s.data.map pyLowerChar⟩

/-- Python `str.replace("\\", "/")` for single characters. -/
def slashify (s : String) : String :=
  ⟨s.data.map (fun c => if c.toNat == 92 then Char.ofNat 47 else c)⟩

/-- `build_scope_key(source_type, source_id, file_path)`. `_normalize_path`
is taken as the identity (the model receives pre-normalized paths), and
the sha1 hexdigest is modelled by the hashed string itself. -/
def buildScopeKey (source_type source_id file_path : String) : String :=
  let stype0 := pyLower (pyStrip source_type)
  let stype := if stype0 = "" then "unknown" else stype0
  let sid := slashify (pyStrip source_id)
  let npath := file_path
  if npath ≠ "" then stype ++ "|" ++ npath else stype ++ "|" ++ sid ++ "|"

/-- One iteration of the insert loop of `append_entry_history_records`:
skip when the most recent stored hash for the pair equals the new hash,
otherwise insert a fresh row and trim the pair down to `keep` rows
(`DELETE ... ORDER BY created_at DESC, id DESC LIMIT -1 OFFSET keep`). -/
def appendOne (S : HistoryStore) (sk uid : String) (csnap : Entry) (keep : Nat) (ts : Nat) :
    HistoryStore × Bool :=
  let h := snapshotHash csnap
  let dup := match mostRecent S sk uid with
    | some r => r.snapshot_hash == h
    | none => false
  if dup then (S, false)
  else
    let nr : HistoryRow := ⟨S.next_id, sk, uid, csnap, h, ts⟩
    let rows1 := S.rows ++ [nr]
    let keepRows := (sortNewest (rows1.filter (matchP sk uid))).take keep
    let rows2 := rows1.filter (fun r => !(matchP sk uid r) || decide (r ∈ keepRows))
    (⟨rows2, S.next_id + 1⟩, true)

/-- The record-cleaning pass of `append_entry_history_records`: drop
records with a blank uid and re-canonicalize each snapshot defensively.
(Records are typed `(uid, dict)` pairs in the model, so the `isinstance`
guards of the Python code cannot fail.) -/
def cleanRecords (records : List PrevRecord) : List (String × Entry) :=
  records.filterMap (fun rec =>
    let uid := pyStrip rec.entry_uid
    if uid = "" then none
    else some (uid, snapshotEntry rec.snapshot uid))

/-- `append_entry_history_records` on the error-free path: clean the
records, then run the insert-dedup-trim loop inside one transaction,
returning the new store and the inserted count. All rows of one call
share `now_ts` (`time.time()` is read once). -/
def appendEntryHistoryRecords (S : HistoryStore) (source_type source_id file_path : String)
    (records : List PrevRecord) (limitConv : Option Int) (now_ts : Nat) : HistoryStore × Nat :=
  if records.isEmpty then (S, 0)
  else
    let clean := cleanRecords records
    if clean.isEmpty then (S, 0)
    else
      let sk := buildScopeKey source_type source_id file_path
      let keep := getHistoryLimit limitConv
      clean.foldl (fun acc p =>
        let (S', ins) := appendOne acc.1 sk p.1 p.2 keep now_ts
        (S', acc.2 + (if ins then 1 else 0))) (S, 0)

/-- The number of `INSERT` statements already executed when a storage
error interrupts `append_entry_history_records` after `k` records. -/
def insertedBeforeFailure (S : HistoryStore) (source_type source_id file_path : String)
    (records : List PrevRecord) (limitConv : Option Int) (now_ts : Nat) (k : Nat) : Nat :=
  (appendEntryHistoryRecords S source_type source_id file_path (records.take k) limitConv now_ts).2

/-- `append_entry_history_records` when a storage error is raised after
`k` records have been processed: the `with sqlite3.connect(...)` context
manager rolls the open transaction back on the exception (so the pending
inserts of this call are discarded and the store is unchanged), and the
`except` branch logs the error and returns 0 instead of re-raising. -/
def appendWithStorageError (S : HistoryStore) (_source_type _source_id _file_path : String)
    (_records : List PrevRecord) (_limitConv : Option Int) (_now_ts : Nat) (_k : Nat) :
    HistoryStore × Nat :=
  (S, 0)

/-- `list_entry_history_records`: newest first, bounded by the clamped
limit; a blank uid returns the empty list; items carry
`(id, created_at, snapshot)`. -/
def listEntryHistoryRecords (S : HistoryStore) (source_type source_id file_path entry_uid : String)
    (limitConv : Option Int) : List (Nat × Nat × Entry) :=
  let uid := pyStrip entry_uid
  if uid = "" then []
  else
    let sk := buildScopeKey source_type source_id file_path
    let fetch := getHistoryLimit limitConv
    ((sortNewest (pairRows S sk uid)).take fetch).map (fun r => (r.id, r.created_at, r.snapshot))

/-- The in-memory change tracker `{type: {id: timestamp}}`. -/
abbrev ChangeTracker := List (String × List (String × Int))

/-- Python `timestamp or <now_ms>`: `0` and `None` are falsy and replaced
by the current time in milliseconds; any other integer is kept verbatim. -/
def storedTimestamp (timestamp : Option Int) (now_ms : Int) : Int :=
  match timestamp with
  | some t => if t = 0 then now_ms else t
  | none => now_ms

/-- `track_change(resource_type, resource_id, timestamp)`; `now_ms` is
`int(datetime.now().timestamp() * 1000)`. -/
def trackChange (tracker : ChangeTracker) (resource_type resource_id : String)
    (timestamp : Option Int) (now_ms : Int) : ChangeTracker :=
  let cur := (assocGet tracker resource_type).getD []
  assocSet tracker resource_type (assocSet cur resource_id (storedTimestamp timestamp now_ms))

/-- Lookup of a tracked timestamp. -/
def trackerLookup (tracker : ChangeTracker) (resource_type resource_id : String) : Option Int :=
  assocGet ((assocGet tracker resource_type).getD []) resource_id

/-- A file of a resource-type source tree as `_incremental_copy` walks it:
directory part relative to the root, bare filename, and mtime. -/
structure SrcFile where
  relRoot : String
  name : String
  mtime : Int
deriving DecidableEq

/-- A backup record as `list_backups()` returns it, reduced to what
`_get_last_backup_time` consumes: `parsedTimestamp` is `some t` when
`datetime.fromisoformat(record["timestamp"])` succeeds and `none` when it
raises (e.g. the synthesized record of a legacy backup directory). -/
structure BackupMeta where
  parsedTimestamp : Option Int
deriving DecidableEq

/-- `_get_last_backup_time()`: the parsed timestamp of the newest backup;
`None` when no backup exists or when parsing raises (`except: pass`). -/
def getLastBackupTime (backups : List BackupMeta) : Option Int :=
  match backups with
  | [] => none
  | b :: _ => b.parsedTimestamp

/-- `self._change_tracker.get(res_type, {})`. -/
def trackerChanges (tracker : ChangeTracker) (res_type : String) : List (String × Int) :=
  (assocGet tracker res_type).getD []

/-- The `should_copy` decision chain of `_incremental_copy`: copy when no
last-backup time is known, the mtime is strictly newer, or the bare
filename is a key of the change set. -/
def shouldCopy (last_backup_time : Option Int) (changes : List (String × Int)) (f : SrcFile) :
    Bool :=
  match last_backup_time with
  | none => true
  | some t =>
      if f.mtime > t then true
      else if (assocGet changes f.name).isSome then true
      else false

/-- `_incremental_copy` over a source-tree listing: the copied files (in
walk order) and the copied-file count; nothing is ever removed from the
target. -/
def incrementalCopy (tracker : ChangeTracker) (res_type : String)
    (files : List SrcFile) (backups : List BackupMeta) : List SrcFile × Nat :=
  let changes := trackerChanges tracker res_type
  let lbt := getLastBackupTime backups
  let copied := files.filter (shouldCopy lbt changes)
  (copied, copied.length)

/-- The copy condition exactly as claim C3 words it: no prior backup
exists, or the mtime is strictly newer than the last backup's (parsed)
timestamp, or the bare filename is in the change set. -/
def claimShouldCopy (backups : List BackupMeta) (changes : List (String × Int)) (f : SrcFile) :
    Bool :=
  backups.isEmpty ||
  (match backups with
   | [] => false
   | b :: _ =>
      match b.parsedTimestamp with
      | some t => decide (f.mtime > t)
      | none => false) ||
  (assocGet changes f.name).isSome

/-- Contents a restore-target directory can hold in the model. -/
inductive RData where
  | originalData : RData
  | backupData : RData
  | halfCopied : RData
deriving DecidableEq

/-- The two locations `restore_backup` touches for one resource type: the
live target directory and the `<target>.restore_backup` sibling. -/
structure RState where
  target : Option RData
  sibling : Option RData
deriving DecidableEq

/-- Filesystem operations of the per-resource restore body. -/
inductive ROp where
  | cleanSibling : ROp
  | moveAside : ROp
  | copyBegin : ROp
  | copyEnd : ROp
  | removeSibling : ROp
deriving DecidableEq

/-- Effect of each operation: `cleanSibling` is the pre-move
`shutil.rmtree(temp_backup)`, `moveAside` is `shutil.move(target_dir,
temp_backup)` (an atomic rename), `copyBegin`/`copyEnd` bracket
`shutil.copytree(source_dir, target_dir)`, `removeSibling` is the
post-copy `shutil.rmtree(temp_backup)`. -/
def applyOp (s : RState) : ROp → RState
  | .cleanSibling => ⟨s.target, none⟩
  | .moveAside => ⟨none, s.target⟩
  | .copyBegin => ⟨some .halfCopied, s.sibling⟩
  | .copyEnd => ⟨some .backupData, s.sibling⟩
  | .removeSibling => ⟨s.target, none⟩

/-- The operation sequence `restore_backup` runs for one resource type
(lines 351-364 of `backup_service.py`): when the live target exists,
clear any stale sibling, rename the target aside, copy the backup tree,
then remove the sibling; otherwise only copy and post-clean. -/
def restoreSteps (targetExists : Bool) : List ROp :=
  if targetExists then
    [.cleanSibling, .moveAside, .copyBegin, .copyEnd, .removeSibling]
  else
    [.copyBegin, .copyEnd, .removeSibling]

/-- Run a sequence of restore operations. -/
def runSteps (init : RState) (ops : List ROp) : RState := ops.foldl applyOp init

/-- Safety property of claim C2 at one state: the original data still
exists (live, or moved aside as the sibling), or the target already holds
the fully restored backup data. -/
def restoreSafe (s : RState) : Prop :=
  s.target = some .originalData ∨ s.sibling = some .originalData ∨
  s.target = some .backupData

/-- Strict key ordering (used to identify sorted field lists). -/
def keyLt (a b : String × JValue) : Prop := keyLe a b ∧ a.1 ≠ b.1

instance : IsAntisymm (String × JValue) keyLt :=
  ⟨fun a b h₁ h₂ =>
    absurd (congrArg String.mk (charListLe_antisymm a.1.data b.1.data h₁.1 h₂.1)) h₁.2⟩

/-- The uid strings of the dict items of a list, in order. -/
def uidsOf (items : List JValue) : List String := (dictEntries items).map entryUidStr

/-- Distinct keys: what makes an association list a faithful dict model. -/
def keysNodup {α : Type} (m : List (String × α)) : Prop := (m.map Prod.fst).Nodup

/-! ### Helper lemmas -/

theorem dropWhile_dropWhile {α : Type} (p : α → Bool) (l : List α) :
    (l.dropWhile p).dropWhile p = l.dropWhile p := by
  induction l with
  | nil => rfl
  | cons a t ih =>
      by_cases h : p a
      · simpa [List.dropWhile_cons, h] using ih
      · simp [List.dropWhile_cons, h]

theorem dropWhile_head_not {α : Type} (p : α → Bool) (l : List α) :
    ∀ a, (l.dropWhile p).head? = some a → p a = false := by
  induction l with
  | nil => intro a h; simp [List.dropWhile] at h
  | cons b t ih =>
      intro a h
      by_cases hb : p b
      · exact ih a (by simpa [List.dropWhile_cons, hb] using h)
      · rw [List.dropWhile_cons, if_neg hb, List.head?_cons, Option.some_inj] at h
        rw [← h]
        exact Bool.eq_false_iff.mpr hb

theorem dropWhile_eq_self_of_head {α : Type} (p : α → Bool) (l : List α)
    (h : ∀ a, l.head? = some a → p a = false) : l.dropWhile p = l := by
  cases l with
  | nil => rfl
  | cons b t => rw [List.dropWhile_cons, if_neg (by simp [h b rfl])]

theorem getLast?_dropWhile {α : Type} (p : α → Bool) (m : List α)
    (h : m.dropWhile p ≠ []) : (m.dropWhile p).getLast? = m.getLast? := by
  induction m with
  | nil => exact absurd rfl h
  | cons a t ih =>
      by_cases ha : p a
      · rw [List.dropWhile_cons, if_pos ha] at h ⊢
        have ht : t ≠ [] := by
          intro he; rw [he] at h; exact h rfl
        rw [ih h]
        cases t with
        | nil => exact absurd rfl ht
        | cons b t' => rw [List.getLast?_cons_cons]
      · rw [List.dropWhile_cons, if_neg ha]

theorem pyStripList_idem (l : List Char) : pyStripList (pyStripList l) = pyStripList l := by
  unfold pyStripList
  set A := l.dropWhile isPySpace with hA
  by_cases hB : A.reverse.dropWhile isPySpace = []
  · rw [hB]; rfl
  · set B := A.reverse.dropWhile isPySpace with hBdef
    have hAne : A ≠ [] := by
      intro he
      rw [he] at hBdef
      exact hB (by rw [hBdef]; rfl)
    obtain ⟨a, t, hAt⟩ := List.exists_cons_of_ne_nil hAne
    have hHa : A.head? = some a := by rw [hAt]; rfl
    have hpa : isPySpace a = false := dropWhile_head_not isPySpace l a (hA ▸ hHa)
    have hBlast : B.getLast? = some a := by
      rw [hBdef, getLast?_dropWhile isPySpace A.reverse (hBdef ▸ hB)]
      rw [← List.reverse_reverse A] at hHa
      rw [← List.head?_reverse]
      exact hHa
    have hstep1 : B.reverse.dropWhile isPySpace = B.reverse := by
      apply dropWhile_eq_self_of_head
      intro x hx
      rw [List.head?_reverse, hBlast, Option.some_inj] at hx
      rw [← hx]; exact hpa
    rw [hstep1, List.reverse_reverse]
    rw [hBdef, dropWhile_dropWhile]

theorem pyStrip_idem (s : String) : pyStrip (pyStrip s) = pyStrip s :=
  congrArg String.mk (pyStripList_idem s.data)

theorem assocGet_nil {α : Type} (k : String) : assocGet ([] : List (String × α)) k = none := rfl

theorem assocGet_cons {α : Type} (k' : String) (v' : α) (t : List (String × α)) (k : String) :
    assocGet ((k', v') :: t) k = if k' == k then some v' else assocGet t k := by
  by_cases h : (k' == k) = true
  · rw [assocGet, List.find?_cons_of_pos _ (by simpa using h), if_pos h]; rfl
  · rw [assocGet, List.find?_cons_of_neg _ (by simpa using h), if_neg h]; rfl

theorem assocGet_append {α : Type} (l₁ l₂ : List (String × α)) (k : String) :
    assocGet (l₁ ++ l₂) k = (assocGet l₁ k).or (assocGet l₂ k) := by
  induction l₁ with
  | nil => simp [assocGet_nil]
  | cons p t ih =>
      rw [List.cons_append, ← p.eta, assocGet_cons, assocGet_cons]
      by_cases h : (p.1 == k) = true
      · rw [if_pos h, if_pos h]; rfl
      · rw [if_neg h, if_neg h]; exact ih

theorem assocGet_map_set {α : Type} (k : String) (v : α) (m : List (String × α)) :
    (m.find? (fun p => p.1 == k)).isSome →
      assocGet (m.map (fun p => if p.1 == k then (k, v) else p)) k = some v := by
  induction m with
  | nil => intro h; simp at h
  | cons p t ih =>
      intro h
      obtain ⟨k0, v0⟩ := p
      by_cases hp : (k0 == k) = true
      · have hk : k0 = k := by simpa using hp
        subst hk
        simp [assocGet_cons]
      · simp only [List.map_cons, if_neg hp, assocGet_cons]
        rw [List.find?_cons_of_neg _ (by simpa using hp)] at h
        exact ih h

theorem assocGet_assocSet_self {α : Type} (m : List (String × α)) (k : String) (v : α) :
    assocGet (assocSet m k v) k = some v := by
  unfold assocSet
  by_cases hs : (m.find? (fun p => p.1 == k)).isSome
  · rw [if_pos hs]
    exact assocGet_map_set k v m hs
  · rw [if_neg hs, assocGet_append]
    have hn : m.find? (fun p => p.1 == k) = none := by
      cases hf : m.find? (fun p => p.1 == k) with
      | none => rfl
      | some q => rw [hf] at hs; simp at hs
    have : assocGet m k = none := by rw [assocGet, hn]; rfl
    rw [this]
    simp [assocGet_cons]

theorem assocGet_eq_none_iff {α : Type} (m : List (String × α)) (k : String) :
    assocGet m k = none ↔ m.find? (fun p => p.1 == k) = none := by
  unfold assocGet
  cases m.find? (fun p => p.1 == k) <;> simp

theorem assocSet_assocSet_same {α : Type} (m : List (String × α)) (k : String) (v : α) :
    assocSet (assocSet m k v) k v = assocSet m k v := by
  unfold assocSet
  by_cases hs : (m.find? (fun p => p.1 == k)).isSome
  · rw [if_pos hs]
    have hs2 : ((m.map (fun p => if p.1 == k then (k, v) else p)).find?
        (fun p => p.1 == k)).isSome := by
      rw [List.find?_isSome] at hs ⊢
      obtain ⟨x, hx, hpx⟩ := hs
      refine ⟨(k, v), ?_, by simp⟩
      have hmem := List.mem_map_of_mem (fun p : String × α => if p.1 == k then (k, v) else p) hx
      simp only [hpx, if_true] at hmem
      exact hmem
    rw [if_pos hs2, List.map_map]
    apply List.map_congr_left
    intro p _
    by_cases hp : (p.1 == k) = true
    · simp [Function.comp, hp]
    · simp [Function.comp, hp]
  · rw [if_neg hs]
    have hnone : m.find? (fun p => p.1 == k) = none := Option.not_isSome_iff_eq_none.mp hs
    have hall : ∀ p ∈ m, ¬((p.1 == k) = true) := List.find?_eq_none.mp hnone
    have hs2 : (((m ++ [(k, v)]).find? (fun p => p.1 == k)).isSome) := by
      rw [List.find?_isSome]
      exact ⟨(k, v), by simp, by simp⟩
    rw [if_pos hs2, List.map_append]
    have h1 : m.map (fun p => if p.1 == k then (k, v) else p) = m := by
      conv_rhs => rw [← List.map_id m]
      apply List.map_congr_left
      intro p hp
      rw [if_neg (hall p hp)]
      rfl
    have h2 : [(k, v)].map (fun p : String × α => if p.1 == k then (k, v) else p) = [(k, v)] := by
      simp
    rw [h1, h2]

theorem keysNodup_filter {α : Type} (q : String × α → Bool) (m : List (String × α)) :
    keysNodup m → keysNodup (m.filter q) :=
  fun h => List.Nodup.sublist (List.Sublist.map Prod.fst (List.filter_sublist m)) h

theorem assocGet_eq_some_iff_mem {α : Type} (m : List (String × α)) (k : String) (v : α)
    (hnd : keysNodup m) : assocGet m k = some v ↔ (k, v) ∈ m := by
  constructor
  · intro h
    unfold assocGet at h
    cases hf : m.find? (fun p => p.1 == k) with
    | none => rw [hf] at h; simp at h
    | some q =>
        rw [hf] at h
        have h2 : q.2 = v := by simpa using h
        have hq1 : q.1 = k := by simpa using List.find?_some hf
        have hqm : q ∈ m := List.mem_of_find?_eq_some hf
        have heq : (k, v) = q := Prod.ext_iff.mpr ⟨hq1.symm, h2.symm⟩
        rw [heq]
        exact hqm
  · intro h
    have hsome : (m.find? (fun p => p.1 == k)).isSome := by
      rw [List.find?_isSome]
      exact ⟨(k, v), h, by simp⟩
    cases hf : m.find? (fun p => p.1 == k) with
    | none => rw [hf] at hsome; simp at hsome
    | some q =>
        have hq1 : q.1 = k := by simpa using List.find?_some hf
        have hqm : q ∈ m := List.mem_of_find?_eq_some hf
        have hqe : q = (k, v) :=
          List.inj_on_of_nodup_map hnd hqm h (by simpa using hq1)
        unfold assocGet
        rw [hf, hqe]
        rfl

theorem keysNodup_of_perm {α : Type} {m₁ m₂ : List (String × α)} (h : m₁.Perm m₂)
    (hnd : keysNodup m₁) : keysNodup m₂ :=
  ((h.map Prod.fst).nodup_iff).mp hnd

theorem assocGet_eq_of_perm {α : Type} {m₁ m₂ : List (String × α)} (k : String)
    (h : m₁.Perm m₂) (hnd : keysNodup m₁) : assocGet m₁ k = assocGet m₂ k := by
  have hnd₂ : keysNodup m₂ := keysNodup_of_perm h hnd
  cases h₁ : assocGet m₁ k with
  | some v =>
      have := (assocGet_eq_some_iff_mem m₁ k v hnd).mp h₁
      exact ((assocGet_eq_some_iff_mem m₂ k v hnd₂).mpr (h.mem_iff.mp this)).symm
  | none =>
      rw [assocGet_eq_none_iff] at h₁
      have hall := List.find?_eq_none.mp h₁
      symm
      rw [assocGet_eq_none_iff, List.find?_eq_none]
      exact fun x hx => hall x (h.mem_iff.mpr hx)

theorem assocSet_perm {α : Type} {m₁ m₂ : List (String × α)} (k : String) (v : α)
    (h : m₁.Perm m₂) : (assocSet m₁ k v).Perm (assocSet m₂ k v) := by
  unfold assocSet
  by_cases hs : (m₁.find? (fun p => p.1 == k)).isSome
  · have hs₂ : (m₂.find? (fun p => p.1 == k)).isSome := by
      rw [List.find?_isSome] at hs ⊢
      obtain ⟨x, hx, hpx⟩ := hs
      exact ⟨x, h.mem_iff.mp hx, hpx⟩
    rw [if_pos hs, if_pos hs₂]
    exact h.map _
  · have hs₂ : ¬(m₂.find? (fun p => p.1 == k)).isSome := by
      rw [List.find?_isSome] at hs ⊢
      rintro ⟨x, hx, hpx⟩
      exact hs ⟨x, h.mem_iff.mpr hx, hpx⟩
    rw [if_neg hs, if_neg hs₂]
    exact h.append_right _

theorem keysNodup_assocSet {α : Type} (m : List (String × α)) (k : String) (v : α)
    (hnd : keysNodup m) : keysNodup (assocSet m k v) := by
  unfold assocSet
  by_cases hs : (m.find? (fun p => p.1 == k)).isSome
  · rw [if_pos hs]
    unfold keysNodup
    rw [List.map_map]
    have : (Prod.fst ∘ fun p : String × α => if p.1 == k then (k, v) else p) = Prod.fst := by
      funext p
      by_cases hp : (p.1 == k) = true
      · simp [Function.comp, hp]
        exact (by simpa using hp : p.1 = k).symm
      · simp [Function.comp, hp]
    rw [this]
    exact hnd
  · rw [if_neg hs]
    unfold keysNodup
    rw [List.map_append, List.nodup_append]
    refine ⟨hnd, by simp, ?_⟩
    intro a ha hb
    simp only [List.map_cons, List.map_nil, List.mem_singleton] at hb
    subst hb
    obtain ⟨p, hp, hpa⟩ := List.mem_map.mp ha
    rw [List.find?_isSome] at hs
    exact hs ⟨p, hp, by simp [hpa]⟩

theorem canonPairs_eq_map (fs : List (String × JValue)) :
    canonPairs fs = fs.map (fun p => (p.1, canon p.2)) := by
  induction fs with
  | nil => rfl
  | cons p t ih =>
      obtain ⟨k, v⟩ := p
      simp [canonPairs, ih]

theorem keys_canonPairs (fs : List (String × JValue)) :
    (canonPairs fs).map Prod.fst = fs.map Prod.fst := by
  rw [canonPairs_eq_map, List.map_map]
  rfl

theorem sorted_keyLt_of_sorted_keyLe {l : List (String × JValue)}
    (hs : List.Sorted keyLe l) (hn : keysNodup l) : List.Sorted keyLt l := by
  have hne : List.Pairwise (fun a b : String × JValue => a.1 ≠ b.1) l :=
    List.pairwise_map.mp hn
  exact List.Pairwise.imp (fun h => ⟨h.1, h.2⟩) (List.Pairwise.and hs hne)

theorem sortPairs_eq_of_perm {m₁ m₂ : List (String × JValue)} (h : m₁.Perm m₂)
    (hnd : keysNodup m₁) : sortPairs m₁ = sortPairs m₂ := by
  have hp₁ : (sortPairs m₁).Perm m₁ := List.perm_insertionSort keyLe m₁
  have hp₂ : (sortPairs m₂).Perm m₂ := List.perm_insertionSort keyLe m₂
  have hperm : (sortPairs m₁).Perm (sortPairs m₂) := hp₁.trans (h.trans hp₂.symm)
  have hs₁ : List.Sorted keyLe (sortPairs m₁) := List.sorted_insertionSort keyLe m₁
  have hs₂ : List.Sorted keyLe (sortPairs m₂) := List.sorted_insertionSort keyLe m₂
  have hnd₁ : keysNodup (sortPairs m₁) := keysNodup_of_perm hp₁.symm hnd
  have hnd₂ : keysNodup (sortPairs m₂) :=
    keysNodup_of_perm hp₂.symm (keysNodup_of_perm h hnd)
  exact List.eq_of_perm_of_sorted hperm
    (sorted_keyLt_of_sorted_keyLe hs₁ hnd₁) (sorted_keyLt_of_sorted_keyLe hs₂ hnd₂)

theorem canon_obj_eq_of_perm {e₁ e₂ : Entry} (h : e₁.Perm e₂) (hnd : keysNodup e₁) :
    canon (.obj e₁) = canon (.obj e₂) := by
  show JValue.obj (sortPairs (canonPairs e₁)) = JValue.obj (sortPairs (canonPairs e₂))
  congr 1
  apply sortPairs_eq_of_perm
  · rw [canonPairs_eq_map, canonPairs_eq_map]
    exact h.map _
  · unfold keysNodup
    rw [keys_canonPairs]
    exact hnd

theorem snapshotEntry_perm {e₁ e₂ : Entry} (u : String) (h : e₁.Perm e₂)
    (hnd : keysNodup e₁) :
    (snapshotEntry e₁ u).Perm (snapshotEntry e₂ u) ∧ keysNodup (snapshotEntry e₁ u) := by
  unfold snapshotEntry
  simp only []
  have hfp : (e₁.filter (fun p => p.1 != "id" && p.1 != "uid" && p.1 != "displayIndex")).Perm
      (e₂.filter (fun p => p.1 != "id" && p.1 != "uid" && p.1 != "displayIndex")) :=
    h.filter _
  have hfnd : keysNodup (e₁.filter (fun p => p.1 != "id" && p.1 != "uid" && p.1 != "displayIndex")) :=
    keysNodup_filter _ e₁ hnd
  have hget := assocGet_eq_of_perm ENTRY_UID_FIELD hfp hfnd
  rw [← hget]
  by_cases hu : (pyStrip (if u != "" then u
      else pyStrOrEmpty ((assocGet (e₁.filter (fun p => p.1 != "id" && p.1 != "uid" && p.1 != "displayIndex")) ENTRY_UID_FIELD).getD (.str ""))) != "") = true
  · rw [if_pos hu, if_pos hu]
    exact ⟨assocSet_perm _ _ hfp, keysNodup_assocSet _ _ _ hfnd⟩
  · rw [if_neg hu, if_neg hu]
    exact ⟨hfp, hfnd⟩

/-- C6: for every entry the snapshot hash is deterministic, and permuting
the fields of an entry before snapshotting (with any forced uid) does not
change the hash — structurally equal records hash identically regardless
of field insertion order. -/
theorem C6_snapshot_hash_deterministic_order_free :
    ∀ (e : Entry) (u : String),
      snapshotHash (snapshotEntry e u) = snapshotHash (snapshotEntry e u) ∧
      ∀ e₂ : Entry, e.Perm e₂ → keysNodup e →
        snapshotHash (snapshotEntry e u) = snapshotHash (snapshotEntry e₂ u) := by
  intro e u
  refine ⟨rfl, ?_⟩
  intro e₂ hperm hnd
  obtain ⟨hp, hn⟩ := snapshotEntry_perm u hperm hnd
  unfold snapshotHash
  rw [canon_obj_eq_of_perm hp hn]

/-- Witness for C6 at a concrete pair of field-permuted entries. -/
theorem C6_witness :
    ([("a", JValue.num 1), ("b", JValue.num 2)] : Entry).Perm
        [("b", JValue.num 2), ("a", JValue.num 1)] ∧
    keysNodup ([("a", JValue.num 1), ("b", JValue.num 2)] : Entry) ∧
    snapshotHash (snapshotEntry [("a", JValue.num 1), ("b", JValue.num 2)] "u") =
      snapshotHash (snapshotEntry [("b", JValue.num 2), ("a", JValue.num 1)] "u") :=
  ⟨List.Perm.swap ("b", JValue.num 2) ("a", JValue.num 1) [],
    by unfold keysNodup; decide,
    (C6_snapshot_hash_deterministic_order_free [("a", JValue.num 1), ("b", JValue.num 2)] "u").2
      [("b", JValue.num 2), ("a", JValue.num 1)]
      (List.Perm.swap ("b", JValue.num 2) ("a", JValue.num 1) [])
      (by unfold keysNodup; decide)⟩

/-- C2: for a resource type whose live target directory exists, after every
prefix of the restore operation sequence either the original data still
exists (live or as the `.restore_backup` sibling) or the target holds the
fully restored data; and the sibling removal is the last step, after the
copy completes. -/
theorem C2_restore_preserves_recoverability :
    ∀ (sib0 : Option RData) (n : Nat),
      restoreSafe (runSteps ⟨some .originalData, sib0⟩ ((restoreSteps true).take n)) ∧
      restoreSteps true = [.cleanSibling, .moveAside, .copyBegin, .copyEnd, .removeSibling] := by
  intro sib0 n
  refine ⟨?_, rfl⟩
  match n with
  | 0 => exact Or.inl rfl
  | 1 => exact Or.inl rfl
  | 2 => exact Or.inr (Or.inl rfl)
  | 3 => exact Or.inr (Or.inl rfl)
  | 4 => exact Or.inr (Or.inr rfl)
  | (n + 5) =>
      rw [List.take_of_length_le (by simp [restoreSteps])]
      exact Or.inr (Or.inr rfl)

theorem getHistoryLimit_pos (lc : Option Int) : 1 ≤ getHistoryLimit lc := by
  unfold getHistoryLimit
  have h1 : (1 : Int) ≤ max 1 (min (lc.getD DEFAULT_HISTORY_LIMIT) MAX_HISTORY_LIMIT) :=
    le_max_left _ _
  omega

theorem appendOne_skip_iff (S : HistoryStore) (sk uid : String) (csnap : Entry) (keep ts : Nat) :
    (appendOne S sk uid csnap keep ts).2 = false ↔
      ∃ r, mostRecent S sk uid = some r ∧ r.snapshot_hash = snapshotHash csnap := by
  cases hm : mostRecent S sk uid with
  | none => simp [appendOne, hm]
  | some r =>
      by_cases hh : (r.snapshot_hash == snapshotHash csnap) = true
      · have hhe : r.snapshot_hash = snapshotHash csnap := by simpa using hh
        simp [appendOne, hm, hh, hhe]
      · have hne : ¬(r.snapshot_hash = snapshotHash csnap) := by simpa using hh
        simp [appendOne, hm, hh, hne]

theorem appendOne_skip_store (S : HistoryStore) (sk uid : String) (csnap : Entry) (keep ts : Nat)
    (h : (appendOne S sk uid csnap keep ts).2 = false) :
    (appendOne S sk uid csnap keep ts).1 = S := by
  cases hm : mostRecent S sk uid with
  | none => simp [appendOne, hm] at h
  | some r =>
      by_cases hh : (r.snapshot_hash == snapshotHash csnap) = true
      · simp [appendOne, hm, hh]
      · simp [appendOne, hm, hh] at h

theorem appendOne_insert_store (S : HistoryStore) (sk uid : String) (csnap : Entry) (keep ts : Nat)
    (h : (appendOne S sk uid csnap keep ts).2 = true) :
    (appendOne S sk uid csnap keep ts).1 =
      ⟨(S.rows ++ [(⟨S.next_id, sk, uid, csnap, snapshotHash csnap, ts⟩ : HistoryRow)]).filter
          (fun r => !(matchP sk uid r) ||
            decide (r ∈ (sortNewest ((S.rows ++ [(⟨S.next_id, sk, uid, csnap, snapshotHash csnap, ts⟩ : HistoryRow)]).filter (matchP sk uid))).take keep)),
        S.next_id + 1⟩ := by
  cases hm : mostRecent S sk uid with
  | none => simp [appendOne, hm]
  | some r =>
      by_cases hh : (r.snapshot_hash == snapshotHash csnap) = true
      · simp [appendOne, hm, hh] at h
      · simp [appendOne, hm, hh]

theorem matchP_self (S : HistoryStore) (sk uid : String) (csnap : Entry) (ts : Nat) :
    matchP sk uid ⟨S.next_id, sk, uid, csnap, snapshotHash csnap, ts⟩ = true := by
  simp [matchP]

theorem filter_matchP_append_self (S : HistoryStore) (sk uid : String) (nr : HistoryRow)
    (hnr : matchP sk uid nr = true) :
    (S.rows ++ [nr]).filter (matchP sk uid) = pairRows S sk uid ++ [nr] := by
  rw [List.filter_append]
  simp [hnr, pairRows]

theorem pairRows_insert_mem (S : HistoryStore) (sk uid : String) (csnap : Entry) (keep ts : Nat)
    (h : (appendOne S sk uid csnap keep ts).2 = true) :
    ∀ r, r ∈ pairRows (appendOne S sk uid csnap keep ts).1 sk uid ↔
      r ∈ (sortNewest (pairRows S sk uid ++
        [⟨S.next_id, sk, uid, csnap, snapshotHash csnap, ts⟩])).take keep := by
  intro r
  set nr : HistoryRow := ⟨S.next_id, sk, uid, csnap, snapshotHash csnap, ts⟩ with hnr
  have hfa : (S.rows ++ [nr]).filter (matchP sk uid) = pairRows S sk uid ++ [nr] :=
    filter_matchP_append_self S sk uid nr (matchP_self S sk uid csnap ts)
  rw [appendOne_insert_store S sk uid csnap keep ts h]
  unfold pairRows
  simp only []
  rw [List.filter_filter, hfa]
  set keepRows := (sortNewest (pairRows S sk uid ++ [nr])).take keep with hkr
  constructor
  · intro hr
    rw [List.mem_filter] at hr
    obtain ⟨-, hp⟩ := hr
    rcases Bool.and_eq_true_iff.mp hp with ⟨hp1, hp2⟩
    rcases Bool.or_eq_true_iff.mp hp2 with hneg | hmem
    · rw [Bool.not_eq_eq_eq_not] at hneg
      simp [hp1] at hneg
    · exact of_decide_eq_true hmem
  · intro hr
    have hsub : keepRows ⊆ pairRows S sk uid ++ [nr] := by
      intro x hx
      have h1 : x ∈ sortNewest (pairRows S sk uid ++ [nr]) := List.take_subset _ _ hx
      exact (List.perm_insertionSort newerEq _).mem_iff.mp h1
    have hrm : r ∈ pairRows S sk uid ++ [nr] := hsub hr
    have hrr : r ∈ S.rows ++ [nr] := by
      rw [← hfa] at hrm
      exact List.mem_of_mem_filter hrm
    have hrp : matchP sk uid r = true := by
      rw [← hfa] at hrm
      exact List.of_mem_filter hrm
    rw [List.mem_filter]
    refine ⟨hrr, ?_⟩
    rw [Bool.and_eq_true]
    refine ⟨hrp, ?_⟩
    rw [Bool.or_eq_true]
    right
    exact decide_eq_true hr

theorem pairRows_insert_length (S : HistoryStore) (sk uid : String) (csnap : Entry)
    (keep ts : Nat) (hwf : storeWF S) (h : (appendOne S sk uid csnap keep ts).2 = true) :
    (pairRows (appendOne S sk uid csnap keep ts).1 sk uid).length ≤ keep := by
  set nr : HistoryRow := ⟨S.next_id, sk, uid, csnap, snapshotHash csnap, ts⟩ with hnr
  set keepRows := (sortNewest (pairRows S sk uid ++ [nr])).take keep with hkr
  have hnot : nr ∉ S.rows := by
    intro hx
    have hlt := hwf.2 nr hx
    rw [hnr] at hlt
    simp at hlt
  have hnd1 : (S.rows ++ [nr]).Nodup := by
    rw [List.nodup_append]
    refine ⟨hwf.1, List.nodup_singleton nr, ?_⟩
    intro a ha hb
    rw [List.mem_singleton] at hb
    subst hb
    exact hnot ha
  have hnd : (pairRows (appendOne S sk uid csnap keep ts).1 sk uid).Nodup := by
    rw [appendOne_insert_store S sk uid csnap keep ts h]
    unfold pairRows
    simp only []
    exact List.Nodup.filter _ (List.Nodup.filter _ hnd1)
  have hsub : pairRows (appendOne S sk uid csnap keep ts).1 sk uid ⊆ keepRows := by
    intro r hr
    exact (pairRows_insert_mem S sk uid csnap keep ts h r).mp hr
  have := (List.subperm_of_subset hnd hsub).length_le
  calc (pairRows (appendOne S sk uid csnap keep ts).1 sk uid).length
      ≤ keepRows.length := this
    _ ≤ keep := by rw [hkr, List.length_take]; omega

theorem take_ne_nil {α : Type} (l : List α) (n : Nat) (hl : l ≠ []) (hn : 1 ≤ n) :
    l.take n ≠ [] := by
  cases l with
  | nil => exact absurd rfl hl
  | cons a t =>
      cases n with
      | zero => omega
      | succ m => simp

theorem pairRows_insert_ne_nil (S : HistoryStore) (sk uid : String) (csnap : Entry)
    (keep ts : Nat) (hkeep : 1 ≤ keep) (h : (appendOne S sk uid csnap keep ts).2 = true) :
    pairRows (appendOne S sk uid csnap keep ts).1 sk uid ≠ [] := by
  set nr : HistoryRow := ⟨S.next_id, sk, uid, csnap, snapshotHash csnap, ts⟩ with hnr
  have hne : sortNewest (pairRows S sk uid ++ [nr]) ≠ [] := by
    intro hc
    have := (List.perm_insertionSort newerEq (pairRows S sk uid ++ [nr])).length_eq
    rw [show sortNewest (pairRows S sk uid ++ [nr]) =
      List.insertionSort newerEq (pairRows S sk uid ++ [nr]) from rfl] at hc
    rw [hc] at this
    simp at this
  have htk : (sortNewest (pairRows S sk uid ++ [nr])).take keep ≠ [] :=
    take_ne_nil _ keep hne hkeep
  obtain ⟨r0, t0, ht0⟩ := List.exists_cons_of_ne_nil htk
  intro hc
  have := (pairRows_insert_mem S sk uid csnap keep ts h r0).mpr (by rw [ht0]; simp)
  rw [hc] at this
  simp at this

/-- C10: `track_change` stores the current time in milliseconds when the
explicit timestamp argument is 0 or None (both falsy under
`timestamp or <now>`), and stores any nonzero timestamp verbatim. -/
theorem C10_track_change_zero_timestamp :
    ∀ (tracker : ChangeTracker) (rtype rid : String) (now_ms : Int),
      trackerLookup (trackChange tracker rtype rid (some 0) now_ms) rtype rid = some now_ms ∧
      trackerLookup (trackChange tracker rtype rid none now_ms) rtype rid = some now_ms ∧
      ∀ t : Int, t ≠ 0 →
        trackerLookup (trackChange tracker rtype rid (some t) now_ms) rtype rid = some t := by
  intro tracker rtype rid now
  have key : ∀ ts nowv,
      trackerLookup (trackChange tracker rtype rid ts nowv) rtype rid =
        some (storedTimestamp ts nowv) := by
    intro ts nowv
    unfold trackChange trackerLookup
    rw [assocGet_assocSet_self]
    simp only [Option.getD_some]
    exact assocGet_assocSet_self _ _ _
  refine ⟨?_, ?_, ?_⟩
  · rw [key]; simp [storedTimestamp]
  · rw [key]; simp [storedTimestamp]
  · intro t ht
    rw [key]
    simp [storedTimestamp, ht]

/-- Witness for C10 at a concrete nonzero timestamp. -/
theorem C10_witness :
    trackerLookup (trackChange [] "characters" "c1" (some 5) 999) "characters" "c1" = some 5 :=
  (C10_track_change_zero_timestamp [] "characters" "c1" 999).2.2 5 (by decide)

/-- C9: the effective history limit is clamped into 1..100 — nonpositive
values (including 0) become 1, values above 100 become 100, in-range
values pass through, and an unconvertible value falls back to the default
7; consequently an insert-and-trim keeps at least one record for the
pair, and listing with limit 0 returns at most one record. -/
theorem C9_history_limit_clamped :
    (∀ n : Int, n ≤ 0 → getHistoryLimit (some n) = 1) ∧
    (∀ n : Int, 100 < n → getHistoryLimit (some n) = 100) ∧
    (∀ n : Int, 1 ≤ n → n ≤ 100 → getHistoryLimit (some n) = n.toNat) ∧
    getHistoryLimit none = 7 ∧
    (∀ (S : HistoryStore) (sk uid : String) (csnap : Entry) (lc : Option Int) (ts : Nat),
      (appendOne S sk uid csnap (getHistoryLimit lc) ts).2 = true →
        pairRows (appendOne S sk uid csnap (getHistoryLimit lc) ts).1 sk uid ≠ []) ∧
    (∀ (S : HistoryStore) (st sid fp uid : String),
      (listEntryHistoryRecords S st sid fp uid (some 0)).length ≤ 1) := by
  refine ⟨?_, ?_, ?_, by decide, ?_, ?_⟩
  · intro n hn
    unfold getHistoryLimit DEFAULT_HISTORY_LIMIT MAX_HISTORY_LIMIT
    simp only [Option.getD_some]
    omega
  · intro n hn
    unfold getHistoryLimit DEFAULT_HISTORY_LIMIT MAX_HISTORY_LIMIT
    simp only [Option.getD_some]
    omega
  · intro n h1 h2
    unfold getHistoryLimit DEFAULT_HISTORY_LIMIT MAX_HISTORY_LIMIT
    simp only [Option.getD_some]
    omega
  · intro S sk uid csnap lc ts h
    exact pairRows_insert_ne_nil S sk uid csnap _ ts (getHistoryLimit_pos lc) h
  · intro S st sid fp uid
    unfold listEntryHistoryRecords
    by_cases hu : pyStrip uid = ""
    · simp [hu]
    · simp only [if_neg hu]
      rw [List.length_map, List.length_take]
      have h0 : getHistoryLimit (some 0) = 1 := by decide
      rw [h0]
      omega

/-- Witness for C9 at a concrete negative limit and concrete listing. -/
theorem C9_witness :
    getHistoryLimit (some (-3)) = 1 ∧
    (listEntryHistoryRecords emptyStore "worldbooks" "" "p" "a" (some 0)).length ≤ 1 :=
  ⟨C9_history_limit_clamped.1 (-3) (by decide),
   C9_history_limit_clamped.2.2.2.2.2 emptyStore "worldbooks" "" "p" "a"⟩

/-- C3 (amended): during an incremental backup a file is copied iff no
prior backup exists, or the newest backup record's timestamp cannot be
parsed, or the file's mtime is strictly newer than that parsed timestamp,
or its bare filename is a key of the change set of the resource type. -/
theorem C3_incremental_copy_condition :
    ∀ (tracker : ChangeTracker) (res_type : String) (files : List SrcFile)
      (backups : List BackupMeta) (f : SrcFile),
      f ∈ (incrementalCopy tracker res_type files backups).1 ↔
        f ∈ files ∧
          (backups = [] ∨
           (∃ rest, backups = ⟨none⟩ :: rest) ∨
           (∃ t rest, backups = ⟨some t⟩ :: rest ∧ t < f.mtime) ∨
           (assocGet (trackerChanges tracker res_type) f.name).isSome = true) := by
  intro tracker res_type files backups f
  unfold incrementalCopy
  simp only [List.mem_filter]
  apply and_congr_right
  intro _
  cases backups with
  | nil =>
      simp [shouldCopy, getLastBackupTime]
  | cons b rest =>
      obtain ⟨bts⟩ := b
      cases bts with
      | none =>
          simp only [getLastBackupTime, shouldCopy]
          constructor
          · intro _
            exact Or.inr (Or.inl ⟨rest, rfl⟩)
          · intro _
            trivial
      | some t =>
          simp only [getLastBackupTime, shouldCopy]
          constructor
          · intro h
            by_cases hmt : f.mtime > t
            · exact Or.inr (Or.inr (Or.inl ⟨t, rest, rfl, hmt⟩))
            · rw [if_neg hmt] at h
              by_cases hc : (assocGet (trackerChanges tracker res_type) f.name).isSome = true
              · exact Or.inr (Or.inr (Or.inr hc))
              · rw [if_neg hc] at h
                exact absurd h (by simp)
          · intro h
            rcases h with h | h | h | h
            · exact absurd h (by simp)
            · obtain ⟨r, hr⟩ := h
              simp at hr
            · obtain ⟨t', r', he, hmt⟩ := h
              have ht' : t = t' := by
                have := List.head_eq_of_cons_eq he
                simpa [BackupMeta.mk.injEq] using this
              rw [if_pos (ht' ▸ hmt)]
            · by_cases hmt : f.mtime > t
              · rw [if_pos hmt]
              · rw [if_neg hmt, if_pos h]

/-- Counterexample to C3 as stated: one prior backup exists but its
timestamp string does not parse (`except: pass` in
`_get_last_backup_time`, e.g. a legacy backup whose record synthesizes
`timestamp` from the directory name `20240101_030000`); a stale file not
in any change set is still copied, although none of the three conditions
of the claim holds. -/
theorem C3_counterexample :
    (incrementalCopy [] "characters" [(⟨".", "a.png", 0⟩ : SrcFile)]
        [(⟨none⟩ : BackupMeta)]).1 = [(⟨".", "a.png", 0⟩ : SrcFile)] ∧
    claimShouldCopy [(⟨none⟩ : BackupMeta)] (trackerChanges [] "characters")
        (⟨".", "a.png", 0⟩ : SrcFile) = false := by
  constructor
  · rfl
  · rfl

/-- C8 (amended): on a storage error, `append_entry_history_records`
logs, never raises (the model is a total function), and returns 0; the
sqlite connection context manager rolls the transaction back, so the
store is unchanged and 0 equals the number of rows of this call that
remain inserted. -/
theorem C8_storage_error_returns_zero :
    ∀ (S : HistoryStore) (st sid fp : String) (records : List PrevRecord)
      (lc : Option Int) (ts k : Nat),
      appendWithStorageError S st sid fp records lc ts k = (S, 0) ∧
      ((appendWithStorageError S st sid fp records lc ts k).1.rows.filter
          (fun r => decide (r ∉ S.rows))).length =
        (appendWithStorageError S st sid fp records lc ts k).2 := by
  intro S st sid fp records lc ts k
  refine ⟨rfl, ?_⟩
  show (S.rows.filter (fun r => decide (r ∉ S.rows))).length = 0
  have : S.rows.filter (fun r => decide (r ∉ S.rows)) = [] := by
    rw [List.filter_eq_nil_iff]
    intro a ha
    simp [ha]
  rw [this]
  rfl

/-- Counterexample to C8 as stated: two records with distinct snapshots
for one uid, a storage error after the first — one INSERT had executed
before the failure, yet the call returns 0 (the rollback also undoes that
insert). -/
theorem C8_counterexample :
    (appendWithStorageError emptyStore "worldbooks" "" "p"
        [⟨"a", [("text", JValue.str "x")]⟩, ⟨"a", [("text", JValue.str "y")]⟩]
        (some 7) 1 1).2 = 0 ∧
    insertedBeforeFailure emptyStore "worldbooks" "" "p"
        [⟨"a", [("text", JValue.str "x")]⟩, ⟨"a", [("text", JValue.str "y")]⟩]
        (some 7) 1 1 = 1 := by
  constructor
  · rfl
  · decide

theorem appendRecords_singleton (S : HistoryStore) (st sid fp uidRaw : String) (snap : Entry)
    (lc : Option Int) (ts : Nat) (hu : pyStrip uidRaw ≠ "") :
    appendEntryHistoryRecords S st sid fp [⟨uidRaw, snap⟩] lc ts =
      ((appendOne S (buildScopeKey st sid fp) (pyStrip uidRaw)
          (snapshotEntry snap (pyStrip uidRaw)) (getHistoryLimit lc) ts).1,
       if (appendOne S (buildScopeKey st sid fp) (pyStrip uidRaw)
          (snapshotEntry snap (pyStrip uidRaw)) (getHistoryLimit lc) ts).2 then 1 else 0) := by
  unfold appendEntryHistoryRecords cleanRecords
  simp [hu]

theorem mostRecent_of_pairRows_nil (S : HistoryStore) (sk uid : String)
    (hp : pairRows S sk uid = []) : mostRecent S sk uid = none := by
  unfold mostRecent
  rw [hp]
  rfl

theorem mostRecent_of_pairRows_singleton (S : HistoryStore) (sk uid : String)
    (nr : HistoryRow) (hp : pairRows S sk uid = [nr]) : mostRecent S sk uid = some nr := by
  unfold mostRecent
  rw [hp]
  rfl

theorem appendOne_empty_pair (S : HistoryStore) (sk uid : String) (csnap : Entry)
    (keep ts : Nat) (hkeep : 1 ≤ keep) (hp : pairRows S sk uid = []) :
    (appendOne S sk uid csnap keep ts).2 = true ∧
    pairRows (appendOne S sk uid csnap keep ts).1 sk uid =
      [(⟨S.next_id, sk, uid, csnap, snapshotHash csnap, ts⟩ : HistoryRow)] := by
  have hm : mostRecent S sk uid = none := mostRecent_of_pairRows_nil S sk uid hp
  have h2 : (appendOne S sk uid csnap keep ts).2 = true := by
    cases h : (appendOne S sk uid csnap keep ts).2 with
    | true => rfl
    | false =>
        obtain ⟨r, hr, -⟩ := (appendOne_skip_iff S sk uid csnap keep ts).mp h
        rw [hm] at hr
        exact absurd hr (by simp)
  refine ⟨h2, ?_⟩
  set nr : HistoryRow := ⟨S.next_id, sk, uid, csnap, snapshotHash csnap, ts⟩ with hnr
  have hfa : (S.rows ++ [nr]).filter (matchP sk uid) = pairRows S sk uid ++ [nr] :=
    filter_matchP_append_self S sk uid nr (matchP_self S sk uid csnap ts)
  have hkeep1 : (sortNewest ((S.rows ++ [nr]).filter (matchP sk uid))).take keep = [nr] := by
    rw [hfa, hp]
    rw [show sortNewest ([] ++ [nr]) = [nr] from rfl]
    cases keep with
    | zero => omega
    | succ m => simp
  rw [appendOne_insert_store S sk uid csnap keep ts h2]
  unfold pairRows
  simp only []
  rw [List.filter_filter, ← hnr, hkeep1, List.filter_append]
  have hSrows : S.rows.filter
      (fun r => matchP sk uid r && (!(matchP sk uid r) || decide (r ∈ [nr]))) = [] := by
    rw [List.filter_eq_nil_iff]
    intro a ha
    have hma : ¬(matchP sk uid a = true) := by
      have := List.filter_eq_nil_iff.mp hp a ha
      exact this
    simp [hma]
  rw [hSrows]
  have hmn : matchP sk uid nr = true := matchP_self S sk uid csnap ts
  simp [hmn]

/-- C1 (amended): each record of a call is skipped exactly when its
snapshot hash equals the most recent stored hash for its pair (the store
is then unchanged, so a dedup-skipped pair keeps its prior rows even when
they exceed a lower limit of the current call); when a record is
inserted, the pair afterwards holds exactly the `limit` newest rows, the
oldest beyond the limit deleted, hence at most `limit` rows; and starting
from a state with no rows for the pair, two consecutive calls with the
same (scope, uid, snapshot) insert exactly once, leaving one row. -/
theorem C1_append_dedup_and_trim :
    (∀ (S : HistoryStore) (sk uid : String) (csnap : Entry) (keep ts : Nat),
      ((appendOne S sk uid csnap keep ts).2 = false ↔
        ∃ r, mostRecent S sk uid = some r ∧ r.snapshot_hash = snapshotHash csnap) ∧
      ((appendOne S sk uid csnap keep ts).2 = false →
        (appendOne S sk uid csnap keep ts).1 = S)) ∧
    (∀ (S : HistoryStore) (sk uid : String) (csnap : Entry) (keep ts : Nat),
      storeWF S → (appendOne S sk uid csnap keep ts).2 = true →
        (pairRows (appendOne S sk uid csnap keep ts).1 sk uid).length ≤ keep ∧
        ∀ r, r ∈ pairRows (appendOne S sk uid csnap keep ts).1 sk uid ↔
          r ∈ (sortNewest (pairRows S sk uid ++
            [(⟨S.next_id, sk, uid, csnap, snapshotHash csnap, ts⟩ : HistoryRow)])).take keep) ∧
    (∀ (S : HistoryStore) (st sid fp uidRaw : String) (snap : Entry)
        (lc : Option Int) (ts₁ ts₂ : Nat),
      pyStrip uidRaw ≠ "" →
      pairRows S (buildScopeKey st sid fp) (pyStrip uidRaw) = [] →
      (appendEntryHistoryRecords S st sid fp [⟨uidRaw, snap⟩] lc ts₁).2 = 1 ∧
      (appendEntryHistoryRecords
          (appendEntryHistoryRecords S st sid fp [⟨uidRaw, snap⟩] lc ts₁).1
          st sid fp [⟨uidRaw, snap⟩] lc ts₂).2 = 0 ∧
      (appendEntryHistoryRecords
          (appendEntryHistoryRecords S st sid fp [⟨uidRaw, snap⟩] lc ts₁).1
          st sid fp [⟨uidRaw, snap⟩] lc ts₂).1 =
        (appendEntryHistoryRecords S st sid fp [⟨uidRaw, snap⟩] lc ts₁).1 ∧
      (pairRows (appendEntryHistoryRecords S st sid fp [⟨uidRaw, snap⟩] lc ts₁).1
          (buildScopeKey st sid fp) (pyStrip uidRaw)).length = 1) := by
  refine ⟨?_, ?_, ?_⟩
  · intro S sk uid csnap keep ts
    exact ⟨appendOne_skip_iff S sk uid csnap keep ts,
      appendOne_skip_store S sk uid csnap keep ts⟩
  · intro S sk uid csnap keep ts hwf h
    exact ⟨pairRows_insert_length S sk uid csnap keep ts hwf h,
      pairRows_insert_mem S sk uid csnap keep ts h⟩
  · intro S st sid fp uidRaw snap lc ts₁ ts₂ hu hp
    set sk := buildScopeKey st sid fp with hsk
    set u := pyStrip uidRaw with hudef
    set cs := snapshotEntry snap (pyStrip uidRaw) with hcs
    set keep := getHistoryLimit lc with hkeep
    have hk1 : 1 ≤ keep := getHistoryLimit_pos lc
    obtain ⟨hins, hrows⟩ := appendOne_empty_pair S sk u cs keep ts₁ hk1 hp
    have hcall1 := appendRecords_singleton S st sid fp uidRaw snap lc ts₁ hu
    set S₁ := (appendOne S sk u cs keep ts₁).1 with hS₁
    have hc1 : appendEntryHistoryRecords S st sid fp [⟨uidRaw, snap⟩] lc ts₁ =
        (S₁, 1) := by
      rw [hcall1, hins]
      rfl
    have hmr : mostRecent S₁ sk u = some
        (⟨S.next_id, sk, u, cs, snapshotHash cs, ts₁⟩ : HistoryRow) :=
      mostRecent_of_pairRows_singleton S₁ sk u _ hrows
    have hskip : (appendOne S₁ sk u cs keep ts₂).2 = false :=
      (appendOne_skip_iff S₁ sk u cs keep ts₂).mpr ⟨_, hmr, rfl⟩
    have hstore : (appendOne S₁ sk u cs keep ts₂).1 = S₁ :=
      appendOne_skip_store S₁ sk u cs keep ts₂ hskip
    have hcall2 := appendRecords_singleton S₁ st sid fp uidRaw snap lc ts₂ hu
    refine ⟨by rw [hc1], ?_, ?_, ?_⟩
    · rw [hc1]
      rw [hcall2, hskip]
      rfl
    · rw [hc1]
      rw [hcall2, hskip]
      simp [hstore]
    · rw [hc1]
      rw [hrows]
      rfl

/-- Witness for C1: double call with one record from an empty store
inserts exactly once. -/
theorem C1_witness :
    (appendEntryHistoryRecords emptyStore "worldbooks" "" "p"
        [⟨"a", [("text", JValue.str "x")]⟩] (some 7) 1).2 = 1 :=
  (C1_append_dedup_and_trim.2.2 emptyStore "worldbooks" "" "p" "a"
      [("text", JValue.str "x")] (some 7) 1 2 (by decide) (by rfl)).1

/-- Counterexample to C1 as stated: two distinct snapshots are inserted
for one pair with limit 2; a third call with limit 1 and the head
snapshot is a dedup no-op, so no trim runs and 2 rows remain although the
call succeeded with effective limit 1. -/
theorem C1_counterexample :
    ((appendEntryHistoryRecords
        (appendEntryHistoryRecords
          (appendEntryHistoryRecords emptyStore "w" "" "p"
            [⟨"a", [("t", JValue.str "1")]⟩] (some 2) 1).1
          "w" "" "p" [⟨"a", [("t", JValue.str "2")]⟩] (some 2) 2).1
        "w" "" "p" [⟨"a", [("t", JValue.str "2")]⟩] (some 1) 3).2 = 0) ∧
    getHistoryLimit (some 1) <
      (pairRows (appendEntryHistoryRecords
        (appendEntryHistoryRecords
          (appendEntryHistoryRecords emptyStore "w" "" "p"
            [⟨"a", [("t", JValue.str "1")]⟩] (some 2) 1).1
          "w" "" "p" [⟨"a", [("t", JValue.str "2")]⟩] (some 2) 2).1
        "w" "" "p" [⟨"a", [("t", JValue.str "2")]⟩] (some 1) 3).1
        (buildScopeKey "w" "" "p") "a").length := by
  constructor
  · decide
  · decide

theorem buildOldByUid_lookup (olds : List Entry) (uid : String) (hu : uid ≠ "") :
    assocGet (buildOldByUid olds) uid = olds.find? (fun e => entryUidStr e == uid) := by
  have aux : ∀ (ol : List Entry) (acc : List (String × Entry)),
      assocGet (ol.foldl (fun acc e =>
        if entryUidStr e ≠ "" ∧ (assocGet acc (entryUidStr e)).isNone
        then acc ++ [(entryUidStr e, e)] else acc) acc) uid =
      (match assocGet acc uid with
       | some oe => some oe
       | none => ol.find? (fun e => entryUidStr e == uid)) := by
    intro ol
    induction ol with
    | nil =>
        intro acc
        cases h : assocGet acc uid <;> simp [h]
    | cons e t ih =>
        intro acc
        rw [List.foldl_cons]
        by_cases hc : entryUidStr e ≠ "" ∧ (assocGet acc (entryUidStr e)).isNone
        · rw [if_pos hc, ih, assocGet_append]
          cases h : assocGet acc uid with
          | some v => simp [h]
          | none =>
              simp only [h, Option.none_or]
              rw [assocGet_cons, assocGet_nil]
              by_cases he : (entryUidStr e == uid) = true
              · have hf : List.find? (fun x => entryUidStr x == uid) (e :: t) = some e :=
                  List.find?_cons_of_pos _ he
                rw [if_pos he, hf]
              · have hf : List.find? (fun x => entryUidStr x == uid) (e :: t) =
                    List.find? (fun x => entryUidStr x == uid) t :=
                  List.find?_cons_of_neg _ he
                rw [if_neg he, hf]
        · rw [if_neg hc, ih]
          cases h : assocGet acc uid with
          | some v => simp [h]
          | none =>
              simp only [h]
              have he : ¬((entryUidStr e == uid) = true) := by
                intro he
                have heq : entryUidStr e = uid := by simpa using he
                exact hc ⟨by rw [heq]; exact hu, by rw [heq, h]; rfl⟩
              have hf : List.find? (fun x => entryUidStr x == uid) (e :: t) =
                  List.find? (fun x => entryUidStr x == uid) t :=
                List.find?_cons_of_neg _ he
              rw [hf]
  have hb : buildOldByUid olds = olds.foldl (fun acc e =>
      if entryUidStr e ≠ "" ∧ (assocGet acc (entryUidStr e)).isNone
      then acc ++ [(entryUidStr e, e)] else acc) [] := rfl
  rw [hb, aux]
  rfl

theorem find?_uid_of_nodup (ds : List Entry) (i : Nat) (e : Entry)
    (hget : ds[i]? = some e) (hnd : (ds.map entryUidStr).Nodup) :
    ds.find? (fun x => entryUidStr x == entryUidStr e) = some e := by
  induction ds generalizing i with
  | nil => simp at hget
  | cons a t ih =>
      cases i with
      | zero =>
          simp only [List.getElem?_cons_zero, Option.some_inj] at hget
          subst hget
          exact List.find?_cons_of_pos _ (by simp)
      | succ j =>
          simp only [List.getElem?_cons_succ] at hget
          rw [List.map_cons, List.nodup_cons] at hnd
          have hae : ¬((entryUidStr a == entryUidStr e) = true) := by
            intro hc
            have heq : entryUidStr a = entryUidStr e := by simpa using hc
            have hmem : e ∈ t := List.getElem?_mem hget
            exact hnd.1 (heq ▸ List.mem_map_of_mem entryUidStr hmem)
          have hf : List.find? (fun x => entryUidStr x == entryUidStr e) (a :: t) =
              List.find? (fun x => entryUidStr x == entryUidStr e) t :=
            List.find?_cons_of_neg _ hae
          rw [hf]
          exact ih j hget hnd.2

theorem collectLoop_eq_nil (olds : List Entry) (dict : List (String × Entry)) :
    ∀ (news : List Entry) (idx : Nat),
      (∀ j ne, news[j]? = some ne → collectStep olds dict (idx + j) ne = none) →
      collectLoop olds dict idx news = [] := by
  intro news
  induction news with
  | nil => intro idx _; rfl
  | cons ne rest ih =>
      intro idx h
      have h0 : collectStep olds dict idx ne = none := by
        have := h 0 ne (by simp)
        simpa using this
      simp only [collectLoop, h0]
      exact ih (idx + 1) (fun j x hx => by
        have := h (j + 1) x (by simpa using hx)
        rw [show idx + (j + 1) = idx + 1 + j by omega] at this
        exact this)

theorem collectLoop_mem (olds : List Entry) (dict : List (String × Entry)) :
    ∀ (news : List Entry) (idx : Nat) (r : PrevRecord),
      r ∈ collectLoop olds dict idx news ↔
        ∃ j ne, news[j]? = some ne ∧ collectStep olds dict (idx + j) ne = some r := by
  intro news
  induction news with
  | nil => intro idx r; simp [collectLoop]
  | cons ne rest ih =>
      intro idx r
      cases h0 : collectStep olds dict idx ne with
      | some r0 =>
          simp only [collectLoop, h0, List.mem_cons]
          constructor
          · rintro (rfl | hr)
            · exact ⟨0, ne, by simp, by simpa using h0⟩
            · obtain ⟨j, x, hx, hs⟩ := (ih (idx + 1) r).mp hr
              exact ⟨j + 1, x, by simpa using hx,
                by rw [show idx + (j + 1) = idx + 1 + j by omega]; exact hs⟩
          · rintro ⟨j, x, hx, hs⟩
            cases j with
            | zero =>
                simp only [List.getElem?_cons_zero, Option.some_inj] at hx
                subst hx
                rw [Nat.add_zero, h0] at hs
                exact Or.inl (Option.some_inj.mp hs).symm
            | succ j =>
                right
                apply (ih (idx + 1) r).mpr
                exact ⟨j, x, by simpa using hx,
                  by rw [show idx + 1 + j = idx + (j + 1) by omega]; exact hs⟩
      | none =>
          simp only [collectLoop, h0]
          rw [ih (idx + 1) r]
          constructor
          · rintro ⟨j, x, hx, hs⟩
            exact ⟨j + 1, x, by simpa using hx,
              by rw [show idx + (j + 1) = idx + 1 + j by omega]; exact hs⟩
          · rintro ⟨j, x, hx, hs⟩
            cases j with
            | zero =>
                simp only [List.getElem?_cons_zero, Option.some_inj] at hx
                subst hx
                rw [Nat.add_zero, h0] at hs
                exact absurd hs (by simp)
            | succ j =>
                exact ⟨j, x, by simpa using hx,
                  by rw [show idx + 1 + j = idx + (j + 1) by omega]; exact hs⟩

/-- C7 (amended): when the entries of D all carry non-blank, pairwise
distinct uids, `collect_previous_versions(D, D)` returns the empty list;
and the result is empty whenever either document has no entries. -/
theorem C7_collect_identity_empty :
    (∀ D : JValue,
      (∀ e ∈ getEntriesRef D, entryUidStr e ≠ "") →
      ((getEntriesRef D).map entryUidStr).Nodup →
      collectPreviousVersions D D = []) ∧
    (∀ old_book new_book : JValue,
      getEntriesRef old_book = [] ∨ getEntriesRef new_book = [] →
      collectPreviousVersions old_book new_book = []) := by
  constructor
  · intro D hne hnd
    unfold collectPreviousVersions
    by_cases hemp : (getEntriesRef D).isEmpty
    · simp [hemp]
    · have hef : (getEntriesRef D).isEmpty = false := by simpa using hemp
      simp only [hef, Bool.or_self, Bool.false_eq_true, if_false]
      apply collectLoop_eq_nil
      intro j ne hget
      have hu : entryUidStr ne ≠ "" := hne ne (List.getElem?_mem hget)
      have hfind := find?_uid_of_nodup (getEntriesRef D) j ne hget hnd
      have hlk : assocGet (buildOldByUid (getEntriesRef D)) (entryUidStr ne) = some ne := by
        rw [buildOldByUid_lookup _ _ hu, hfind]
      unfold collectStep matchedOld
      rw [if_neg hu, hlk]
      simp
  · intro old_book new_book h
    unfold collectPreviousVersions
    rcases h with h | h <;> simp [h]

/-- Counterexample to C7 as stated: both entries of D have an assigned
uid ("a", duplicated); collect(D, D) matches the second new entry to the
FIRST old entry by uid and, their contents differing, emits a record. -/
theorem C7_counterexample :
    (getEntriesRef (JValue.arr
        [.obj [("st_manager_uid", .str "a"), ("text", .str "x")],
         .obj [("st_manager_uid", .str "a"), ("text", .str "y")]])).map entryUidStr
      = ["a", "a"] ∧
    collectPreviousVersions
        (JValue.arr
          [.obj [("st_manager_uid", .str "a"), ("text", .str "x")],
           .obj [("st_manager_uid", .str "a"), ("text", .str "y")]])
        (JValue.arr
          [.obj [("st_manager_uid", .str "a"), ("text", .str "x")],
           .obj [("st_manager_uid", .str "a"), ("text", .str "y")]]) =
      [⟨"a", snapshotEntry [("st_manager_uid", .str "a"), ("text", .str "x")] "a"⟩] := by
  constructor
  · decide
  · decide

/-- Witness for C7 on a concrete single-entry document. -/
theorem C7_witness :
    collectPreviousVersions (JValue.arr [.obj [("st_manager_uid", JValue.str "a")]])
      (JValue.arr [.obj [("st_manager_uid", JValue.str "a")]]) = [] :=
  C7_collect_identity_empty.1 (JValue.arr [.obj [("st_manager_uid", JValue.str "a")]])
    (by decide) (by decide)

theorem collectStep_eq_some (olds : List Entry) (dict : List (String × Entry)) (idx : Nat)
    (ne : Entry) (r : PrevRecord) :
    collectStep olds dict idx ne = some r ↔
      entryUidStr ne ≠ "" ∧ ∃ oe, matchedOld olds dict idx (entryUidStr ne) = some oe ∧
        snapshotHash (snapshotEntry oe (entryUidStr ne)) ≠
          snapshotHash (snapshotEntry ne (entryUidStr ne)) ∧
        r = ⟨entryUidStr ne, snapshotEntry oe (entryUidStr ne)⟩ := by
  unfold collectStep
  by_cases hu : entryUidStr ne = ""
  · simp [hu]
  · rw [if_neg hu]
    cases hm : matchedOld olds dict idx (entryUidStr ne) with
    | none => simp [hu]
    | some oe =>
        simp only []
        by_cases hh : snapshotHash (snapshotEntry oe (entryUidStr ne)) ≠
            snapshotHash (snapshotEntry ne (entryUidStr ne))
        · rw [if_pos hh]
          constructor
          · intro h
            exact ⟨hu, oe, rfl, hh, (Option.some_inj.mp h).symm⟩
          · rintro ⟨-, oe', hoe', -, hr⟩
            rw [← Option.some_inj.mp hoe'] at hr
            rw [hr]
        · rw [if_neg hh]
          constructor
          · intro h
            exact absurd h (by simp)
          · rintro ⟨-, oe', hoe', hh', -⟩
            rw [← Option.some_inj.mp hoe'] at hh'
            exact absurd hh' hh

/-- C5: a new entry with a non-blank uid matches the first old entry with
the same uid when one exists; otherwise the positional fallback at the
same index is used exactly when that old entry has no uid (an old entry
with a different existing uid is never matched positionally, and an
out-of-range index matches nothing); and the emitted records are exactly
those of matched new entries whose forced-uid canonical hashes differ
from the old ones, each carrying the old snapshot keyed by the new
entry's uid. -/
theorem C5_collect_matching :
    (∀ (old_book : JValue) (idx : Nat) (uid : String), uid ≠ "" →
      (∀ oe, (getEntriesRef old_book).find? (fun e => entryUidStr e == uid) = some oe →
        matchedOld (getEntriesRef old_book) (buildOldByUid (getEntriesRef old_book)) idx uid =
          some oe) ∧
      ((getEntriesRef old_book).find? (fun e => entryUidStr e == uid) = none →
        ∀ fb, (getEntriesRef old_book)[idx]? = some fb →
          matchedOld (getEntriesRef old_book) (buildOldByUid (getEntriesRef old_book)) idx uid =
            (if entryUidStr fb = "" then some fb else none)) ∧
      ((getEntriesRef old_book).find? (fun e => entryUidStr e == uid) = none →
        (getEntriesRef old_book)[idx]? = none →
        matchedOld (getEntriesRef old_book) (buildOldByUid (getEntriesRef old_book)) idx uid =
          none)) ∧
    (∀ (old_book new_book : JValue) (r : PrevRecord),
      getEntriesRef old_book ≠ [] → getEntriesRef new_book ≠ [] →
      (r ∈ collectPreviousVersions old_book new_book ↔
        ∃ idx ne, (getEntriesRef new_book)[idx]? = some ne ∧ entryUidStr ne ≠ "" ∧
          ∃ oe, matchedOld (getEntriesRef old_book) (buildOldByUid (getEntriesRef old_book))
              idx (entryUidStr ne) = some oe ∧
            snapshotHash (snapshotEntry oe (entryUidStr ne)) ≠
              snapshotHash (snapshotEntry ne (entryUidStr ne)) ∧
            r = ⟨entryUidStr ne, snapshotEntry oe (entryUidStr ne)⟩)) := by
  constructor
  · intro old_book idx uid hu
    refine ⟨?_, ?_, ?_⟩
    · intro oe hfind
      unfold matchedOld
      rw [buildOldByUid_lookup _ _ hu, hfind]
    · intro hnone fb hfb
      unfold matchedOld
      rw [buildOldByUid_lookup _ _ hu, hnone, hfb]
    · intro hnone hidx
      unfold matchedOld
      rw [buildOldByUid_lookup _ _ hu, hnone, hidx]
  · intro old_book new_book r hold hnew
    have h1 : (getEntriesRef old_book).isEmpty = false :=
      Bool.eq_false_iff.mpr (fun hc => hold (List.isEmpty_iff.mp hc))
    have h2 : (getEntriesRef new_book).isEmpty = false :=
      Bool.eq_false_iff.mpr (fun hc => hnew (List.isEmpty_iff.mp hc))
    unfold collectPreviousVersions
    simp only [h1, h2, Bool.or_self, Bool.false_eq_true, if_false]
    rw [collectLoop_mem]
    simp only [Nat.zero_add, collectStep_eq_some]

/-- Witness for C5: exact uid match at a concrete one-entry document. -/
theorem C5_witness :
    matchedOld
      (getEntriesRef (JValue.arr
        [.obj [("st_manager_uid", JValue.str "a"), ("text", JValue.str "x")]]))
      (buildOldByUid (getEntriesRef (JValue.arr
        [.obj [("st_manager_uid", JValue.str "a"), ("text", JValue.str "x")]])))
      0 "a" = some [("st_manager_uid", JValue.str "a"), ("text", JValue.str "x")] :=
  (C5_collect_matching.1 (JValue.arr
      [.obj [("st_manager_uid", JValue.str "a"), ("text", JValue.str "x")]]) 0 "a"
      (by decide)).1
    [("st_manager_uid", JValue.str "a"), ("text", JValue.str "x")] (by decide)

theorem pyStrip_entryUidStr (e : Entry) : pyStrip (entryUidStr e) = entryUidStr e := by
  unfold entryUidStr
  exact pyStrip_idem _

theorem entryUidStr_of_get (e : Entry) (u : String)
    (hg : assocGet e ENTRY_UID_FIELD = some (.str u)) (hu : u ≠ "")
    (hs : pyStrip u = u) : entryUidStr e = u := by
  unfold entryUidStr
  rw [hg]
  simp only [Option.getD_some]
  unfold pyStrOrEmpty jTruthy
  rw [if_pos (by simpa using hu)]
  exact hs

theorem entryUidStr_assocSet (e : Entry) (u : String) (hu : u ≠ "") (hs : pyStrip u = u) :
    entryUidStr (assocSet e ENTRY_UID_FIELD (.str u)) = u ∧
    assocGet (assocSet e ENTRY_UID_FIELD (.str u)) ENTRY_UID_FIELD = some (.str u) := by
  have hg := assocGet_assocSet_self e ENTRY_UID_FIELD (JValue.str u)
  exact ⟨entryUidStr_of_get _ u hg hu hs, hg⟩

theorem ensureEntry_spec (gen : Nat → String) (e : Entry) (used : List String) (k : Nat)
    (hg1 : gen k ≠ "") (hg2 : pyStrip (gen k) = gen k) (hg3 : gen k ∉ used) :
    ∀ e' used' k' ch, ensureEntry gen e used k = (e', used', k', ch) →
      used' = entryUidStr e' :: used ∧
      k ≤ k' ∧ k' ≤ k + 1 ∧
      assocGet e' ENTRY_UID_FIELD = some (.str (entryUidStr e')) ∧
      entryUidStr e' ≠ "" ∧
      entryUidStr e' ∉ used ∧
      (entryUidStr e' = entryUidStr e ∨ (entryUidStr e' = gen k ∧ k' = k + 1)) := by
  intro e' used' k' ch h
  unfold ensureEntry at h
  by_cases hc : entryUidStr e = "" ∨ entryUidStr e ∈ used
  · rw [if_pos hc] at h
    injection h with h1 h'
    injection h' with h2 h''
    injection h'' with h3 h4
    subst h1 h2 h3
    obtain ⟨hus, hgs⟩ := entryUidStr_assocSet e (gen k) hg1 hg2
    rw [hus]
    exact ⟨rfl, by omega, by omega, hgs, hus ▸ hg1, hus ▸ hg3, Or.inr ⟨rfl, rfl⟩⟩
  · push_neg at hc
    obtain ⟨hne, hnu⟩ := hc
    rw [if_neg (by push_neg; exact ⟨hne, hnu⟩)] at h
    by_cases hgt : assocGet e ENTRY_UID_FIELD = some (.str (entryUidStr e))
    · rw [if_pos hgt] at h
      injection h with h1 h'
      injection h' with h2 h''
      injection h'' with h3 h4
      subst h1 h2 h3
      exact ⟨rfl, le_refl k, by omega, hgt, hne, hnu, Or.inl rfl⟩
    · rw [if_neg hgt] at h
      injection h with h1 h'
      injection h' with h2 h''
      injection h'' with h3 h4
      subst h1 h2 h3
      obtain ⟨hus, hgs⟩ :=
        entryUidStr_assocSet e (entryUidStr e) hne (pyStrip_entryUidStr e)
      rw [hus]
      exact ⟨rfl, le_refl k, by omega, hgs, hne, hnu, Or.inl rfl⟩

theorem ensureItems_spec (gen : Nat → String) :
    ∀ (items : List JValue) (used : List String) (k : Nat),
      (∀ i, k ≤ i → i < k + (dictEntries items).length →
        gen i ≠ "" ∧ pyStrip (gen i) = gen i ∧ gen i ∉ used ∧ gen i ∉ uidsOf items) →
      (∀ i j, k ≤ i → k ≤ j → i < k + (dictEntries items).length →
        j < k + (dictEntries items).length → i ≠ j → gen i ≠ gen j) →
      ∀ items' used' k' ch, ensureItems gen items used k = (items', used', k', ch) →
        items'.length = items.length ∧
        k ≤ k' ∧ k' ≤ k + (dictEntries items).length ∧
        (∀ e' ∈ dictEntries items',
          assocGet e' ENTRY_UID_FIELD = some (.str (entryUidStr e')) ∧ entryUidStr e' ≠ "") ∧
        (uidsOf items').Nodup ∧
        (∀ u ∈ uidsOf items', u ∉ used) ∧
        (∀ u ∈ used', u ∈ used ∨ u ∈ uidsOf items') := by
  intro items
  induction items with
  | nil =>
      intro used k _ _ items' used' k' ch h
      unfold ensureItems at h
      injection h with h1 h'
      injection h' with h2 h''
      injection h'' with h3 h4
      subst h1 h2 h3
      refine ⟨rfl, le_refl k, by simp [dictEntries], by simp [dictEntries], ?_, ?_, ?_⟩
      · simp [uidsOf, dictEntries]
      · simp [uidsOf, dictEntries]
      · exact fun u hu => Or.inl hu
  | cons v rest ih =>
      intro used k hf hinj items' used' k' ch h
      cases hv : toEntry v with
      | none =>
          obtain ⟨⟨rest', used'', k'', ch2⟩, hrec⟩ :
              ∃ r, ensureItems gen rest used k = r := ⟨_, rfl⟩
          have hstep : ensureItems gen (v :: rest) used k = (v :: rest', used'', k'', ch2) := by
            unfold ensureItems
            simp only [hv, hrec]
          rw [hstep] at h
          injection h with h1 h'
          injection h' with h2 h''
          injection h'' with h3 h4
          subst h1 h2 h3
          have hde : dictEntries (v :: rest) = dictEntries rest := by
            simp [dictEntries, List.filterMap_cons, hv]
          have huid : uidsOf (v :: rest) = uidsOf rest := by
            simp [uidsOf, hde]
          have hde' : dictEntries (v :: rest') = dictEntries rest' := by
            simp [dictEntries, List.filterMap_cons, hv]
          have huid' : uidsOf (v :: rest') = uidsOf rest' := by
            simp [uidsOf, hde']
          obtain ⟨l1, l2, l3, l4, l5, l6, l7⟩ := ih used k
            (by
              intro i h1 h2
              have h2' : i < k + (dictEntries (v :: rest)).length := by rw [hde]; exact h2
              have hx := hf i h1 h2'
              rwa [huid] at hx)
            (by
              intro i j hi hj h1 h2 hij
              exact hinj i j hi hj (by rw [hde]; exact h1) (by rw [hde]; exact h2) hij)
            rest' used'' k'' ch2 hrec
          refine ⟨by simp [l1], l2, by rw [hde]; exact l3, by rw [hde']; exact l4,
            by rw [huid']; exact l5, by rw [huid']; exact l6, ?_⟩
          intro u hu
          rcases l7 u hu with h1 | h2
          · exact Or.inl h1
          · exact Or.inr (by rw [huid']; exact h2)
      | some e =>
          obtain ⟨⟨e', used₁, k₁, ch1⟩, hent⟩ : ∃ r, ensureEntry gen e used k = r := ⟨_, rfl⟩
          obtain ⟨⟨rest', used'', k'', ch2⟩, hrec⟩ :
              ∃ r, ensureItems gen rest used₁ k₁ = r := ⟨_, rfl⟩
          have hstep : ensureItems gen (v :: rest) used k =
              (.obj e' :: rest', used'', k'', ch1 || ch2) := by
            unfold ensureItems
            simp only [hv, hent, hrec]
          rw [hstep] at h
          injection h with h1 h'
          injection h' with h2 h''
          injection h'' with h3 h4
          subst h1 h2 h3
          have hde : dictEntries (v :: rest) = e :: dictEntries rest := by
            simp [dictEntries, List.filterMap_cons, hv]
          have hlen : (dictEntries (v :: rest)).length = (dictEntries rest).length + 1 := by
            rw [hde]; rfl
          have huid : uidsOf (v :: rest) = entryUidStr e :: uidsOf rest := by
            simp [uidsOf, hde]
          obtain ⟨hfk1, hfk2, hfk3, hfk4⟩ := hf k (le_refl k) (by omega)
          obtain ⟨E1, E2a, E2b, E3, E4, E5, E6⟩ :=
            ensureEntry_spec gen e used k hfk1 hfk2 hfk3 e' used₁ k₁ ch1 hent
          have hf' : ∀ i, k₁ ≤ i → i < k₁ + (dictEntries rest).length →
              gen i ≠ "" ∧ pyStrip (gen i) = gen i ∧ gen i ∉ used₁ ∧ gen i ∉ uidsOf rest := by
            intro i hi1 hi2
            have hik : k ≤ i := le_trans E2a hi1
            have hilt : i < k + (dictEntries (v :: rest)).length := by omega
            obtain ⟨p1, p2, p3, p4⟩ := hf i hik hilt
            refine ⟨p1, p2, ?_, ?_⟩
            · rw [E1]
              intro hmem
              rcases List.mem_cons.mp hmem with hhd | htl
              · rcases E6 with hL | ⟨hR, hk1⟩
                · rw [hL] at hhd
                  exact p4 (by rw [huid, hhd]; exact List.mem_cons_self _ _)
                · rw [hR] at hhd
                  have hik2 : i ≠ k := by omega
                  exact hinj i k hik (le_refl k) hilt (by omega) hik2 hhd
              · exact p3 htl
            · intro hmem
              exact p4 (by rw [huid]; exact List.mem_cons_of_mem _ hmem)
          have hinj' : ∀ i j, k₁ ≤ i → k₁ ≤ j → i < k₁ + (dictEntries rest).length →
              j < k₁ + (dictEntries rest).length → i ≠ j → gen i ≠ gen j := by
            intro i j hi hj hi2 hj2 hij
            exact hinj i j (le_trans E2a hi) (le_trans E2a hj) (by omega) (by omega) hij
          obtain ⟨l1, l2, l3, l4, l5, l6, l7⟩ :=
            ih used₁ k₁ hf' hinj' rest' used'' k'' ch2 hrec
          have hde' : dictEntries (JValue.obj e' :: rest') = e' :: dictEntries rest' := by
            simp [dictEntries, List.filterMap_cons, toEntry]
          have huid' : uidsOf (JValue.obj e' :: rest') = entryUidStr e' :: uidsOf rest' := by
            simp [uidsOf, hde']
          refine ⟨by simp [l1], ?_, ?_, ?_, ?_, ?_, ?_⟩
          · omega
          · omega
          · rw [hde']
            intro x hx
            rcases List.mem_cons.mp hx with rfl | hxr
            · exact ⟨E3, E4⟩
            · exact l4 x hxr
          · rw [huid', List.nodup_cons]
            refine ⟨?_, l5⟩
            intro hmem
            have hnu := l6 _ hmem
            rw [E1] at hnu
            exact hnu (List.mem_cons_self _ _)
          · rw [huid']
            intro u hu
            rcases List.mem_cons.mp hu with rfl | hur
            · exact E5
            · have hnu := l6 u hur
              rw [E1] at hnu
              intro huused
              exact hnu (List.mem_cons_of_mem _ huused)
          · intro u hu
            rcases l7 u hu with h1 | h2
            · rw [E1] at h1
              rcases List.mem_cons.mp h1 with rfl | h1'
              · exact Or.inr (by rw [huid']; exact List.mem_cons_self _ _)
              · exact Or.inl h1'
            · exact Or.inr (by rw [huid']; exact List.mem_cons_of_mem _ h2)

theorem ensureItems_noop (gen₂ : Nat → String) :
    ∀ (items : List JValue) (used₂ : List String) (k₂ : Nat),
      (∀ e ∈ dictEntries items,
        assocGet e ENTRY_UID_FIELD = some (.str (entryUidStr e)) ∧ entryUidStr e ≠ "") →
      (uidsOf items).Nodup →
      (∀ u ∈ uidsOf items, u ∉ used₂) →
      ensureItems gen₂ items used₂ k₂ = (items, (uidsOf items).reverse ++ used₂, k₂, false) := by
  intro items
  induction items with
  | nil =>
      intro used₂ k₂ _ _ _
      unfold ensureItems
      simp [uidsOf, dictEntries]
  | cons v rest ih =>
      intro used₂ k₂ hgood hnd hdisj
      cases hv : toEntry v with
      | none =>
          have hde : dictEntries (v :: rest) = dictEntries rest := by
            simp [dictEntries, List.filterMap_cons, hv]
          have huid : uidsOf (v :: rest) = uidsOf rest := by simp [uidsOf, hde]
          have hrec := ih used₂ k₂ (by rw [hde] at hgood; exact hgood)
            (by rw [huid] at hnd; exact hnd) (by rw [huid] at hdisj; exact hdisj)
          unfold ensureItems
          simp only [hv, hrec]
          rw [huid]
      | some e =>
          have hve : v = JValue.obj e := by
            cases v <;> simp [toEntry] at hv
            rw [hv]
          have hde : dictEntries (v :: rest) = e :: dictEntries rest := by
            simp [dictEntries, List.filterMap_cons, hv]
          have huid : uidsOf (v :: rest) = entryUidStr e :: uidsOf rest := by
            simp [uidsOf, hde]
          have hgood' := hgood
          rw [hde] at hgood'
          obtain ⟨hg1, hg2⟩ := hgood' e (List.mem_cons_self _ _)
          rw [huid] at hnd hdisj
          have hnd' := List.nodup_cons.mp hnd
          have hne : entryUidStr e ∉ used₂ := hdisj _ (List.mem_cons_self _ _)
          have hcond : ¬(entryUidStr e = "" ∨ entryUidStr e ∈ used₂) := by
            push_neg
            exact ⟨hg2, hne⟩
          have hent : ensureEntry gen₂ e used₂ k₂ =
              (e, entryUidStr e :: used₂, k₂, false) := by
            simp only [ensureEntry]
            rw [if_neg hcond, if_pos hg1]
          have hrec := ih (entryUidStr e :: used₂) k₂
            (fun x hx => hgood x (by rw [hde]; exact List.mem_cons_of_mem _ hx))
            hnd'.2
            (by
              intro u hu
              rw [List.mem_cons]
              push_neg
              exact ⟨fun hq => hnd'.1 (hq ▸ hu), hdisj u (List.mem_cons_of_mem _ hu)⟩)
          unfold ensureItems
          simp only [hv, hent, hrec]
          rw [huid, hve]
          simp

theorem ensureItems_run (gen : Nat → String) (items : List JValue)
    (hfresh : ∀ i, i < (dictEntries items).length →
      gen i ≠ "" ∧ pyStrip (gen i) = gen i ∧ gen i ∉ uidsOf items)
    (hinj : ∀ i j, i < (dictEntries items).length → j < (dictEntries items).length →
      i ≠ j → gen i ≠ gen j) :
    ∀ items' used' k' ch, ensureItems gen items [] 0 = (items', used', k', ch) →
      items'.length = items.length ∧
      (∀ e ∈ dictEntries items', entryUidStr e ≠ "") ∧
      (uidsOf items').Nodup ∧
      ∀ gen₂ k₂, ensureItems gen₂ items' [] k₂ = (items', (uidsOf items').reverse, k₂, false) := by
  intro items' used' k' ch h
  have hf : ∀ i, 0 ≤ i → i < 0 + (dictEntries items).length →
      gen i ≠ "" ∧ pyStrip (gen i) = gen i ∧ gen i ∉ ([] : List String) ∧
      gen i ∉ uidsOf items := by
    intro i _ hi
    obtain ⟨a, b, c⟩ := hfresh i (by omega)
    exact ⟨a, b, by simp, c⟩
  have hj : ∀ i j, 0 ≤ i → 0 ≤ j → i < 0 + (dictEntries items).length →
      j < 0 + (dictEntries items).length → i ≠ j → gen i ≠ gen j := by
    intro i j _ _ hi hj2 hij
    exact hinj i j (by omega) (by omega) hij
  obtain ⟨l1, l2, l3, l4, l5, l6, l7⟩ :=
    ensureItems_spec gen items [] 0 hf hj items' used' k' ch h
  refine ⟨l1, fun e he => (l4 e he).2, l5, ?_⟩
  intro gen₂ k₂
  have hn := ensureItems_noop gen₂ items' [] k₂ l4 l5 (by simp)
  simpa using hn

/-- C4: for every document (list of entries or mapping with an `entries`
field), after `ensure_entry_uids` every entry carries a non-empty uid, the
uids are pairwise distinct, and a second call on the result changes nothing
and reports `false`. The uuid4-based generator is abstracted as `gen` with
the freshness and injectivity that uuid4 provides, stated over the bounded
range of tokens one pass can consume. -/
theorem C4_ensure_entry_uids (gen : Nat → String) (book : JValue)
    (hfresh : ∀ i, i < (getEntriesRef book).length →
      gen i ≠ "" ∧ pyStrip (gen i) = gen i ∧ gen i ∉ (getEntriesRef book).map entryUidStr)
    (hinj : ∀ i, i < (getEntriesRef book).length → ∀ j, j < (getEntriesRef book).length →
      i ≠ j → gen i ≠ gen j) :
    (∀ e ∈ getEntriesRef (ensureEntryUids gen book).1, entryUidStr e ≠ "") ∧
    ((getEntriesRef (ensureEntryUids gen book).1).map entryUidStr).Nodup ∧
    ∀ gen₂, ensureEntryUids gen₂ (ensureEntryUids gen book).1 =
      ((ensureEntryUids gen book).1, false) := by
  suffices hs : ∀ book' ch, ensureEntryUids gen book = (book', ch) →
      (∀ e ∈ getEntriesRef book', entryUidStr e ≠ "") ∧
      ((getEntriesRef book').map entryUidStr).Nodup ∧
      ∀ gen₂, ensureEntryUids gen₂ book' = (book', false) by
    obtain ⟨⟨book', ch⟩, h⟩ : ∃ r, ensureEntryUids gen book = r := ⟨_, rfl⟩
    rw [h]
    exact hs book' ch h
  intro book' ch h
  cases book with
  | null =>
      have hstep : ensureEntryUids gen JValue.null = (JValue.null, false) := rfl
      rw [hstep] at h
      injection h with h1 h2
      subst h1
      exact ⟨fun e he => by simp [getEntriesRef, dictEntries] at he,
        by simp [getEntriesRef, dictEntries], fun gen₂ => rfl⟩
  | bool b =>
      have hstep : ensureEntryUids gen (JValue.bool b) = (JValue.bool b, false) := rfl
      rw [hstep] at h
      injection h with h1 h2
      subst h1
      exact ⟨fun e he => by simp [getEntriesRef, dictEntries] at he,
        by simp [getEntriesRef, dictEntries], fun gen₂ => rfl⟩
  | num n =>
      have hstep : ensureEntryUids gen (JValue.num n) = (JValue.num n, false) := rfl
      rw [hstep] at h
      injection h with h1 h2
      subst h1
      exact ⟨fun e he => by simp [getEntriesRef, dictEntries] at he,
        by simp [getEntriesRef, dictEntries], fun gen₂ => rfl⟩
  | str s =>
      have hstep : ensureEntryUids gen (JValue.str s) = (JValue.str s, false) := rfl
      rw [hstep] at h
      injection h with h1 h2
      subst h1
      exact ⟨fun e he => by simp [getEntriesRef, dictEntries] at he,
        by simp [getEntriesRef, dictEntries], fun gen₂ => rfl⟩
  | arr items =>
      have hge : getEntriesRef (JValue.arr items) = dictEntries items := rfl
      rw [hge] at hfresh hinj
      obtain ⟨⟨items', u', kk, ch0⟩, hrun⟩ : ∃ r, ensureItems gen items [] 0 = r := ⟨_, rfl⟩
      have hstep : ensureEntryUids gen (JValue.arr items) = (.arr items', ch0) := by
        simp only [ensureEntryUids]
        simp only [hrun]
      rw [hstep] at h
      injection h with h1 h2
      subst h1
      obtain ⟨r1, r2, r3, r4⟩ := ensureItems_run gen items hfresh
        (fun i j hi hj hne => hinj i hi j hj hne) items' u' kk ch0 hrun
      have hge' : getEntriesRef (JValue.arr items') = dictEntries items' := rfl
      refine ⟨?_, ?_, ?_⟩
      · rw [hge']; exact r2
      · rw [hge']; exact r3
      · intro gen₂
        have hn := r4 gen₂ 0
        simp only [ensureEntryUids]
        simp only [hn]
  | obj fs =>
      cases hget : assocGet fs "entries" with
      | none =>
          have hge : getEntriesRef (JValue.obj fs) = [] := by
            simp only [getEntriesRef]
            rw [hget]
          have hstep : ensureEntryUids gen (JValue.obj fs) = (JValue.obj fs, false) := by
            simp only [ensureEntryUids]
            rw [hget]
          rw [hstep] at h
          injection h with h1 h2
          subst h1
          refine ⟨?_, ?_, ?_⟩
          · intro e he
            rw [hge] at he
            cases he
          · rw [hge]
            exact List.nodup_nil
          intro gen₂
          simp only [ensureEntryUids]
          rw [hget]
      | some ev =>
          cases ev with
          | null =>
              have hstep : ensureEntryUids gen (JValue.obj fs) = (JValue.obj fs, false) := by
                simp only [ensureEntryUids]
                rw [hget]
              have hge : getEntriesRef (JValue.obj fs) = [] := by
                simp only [getEntriesRef]
                rw [hget]
              rw [hstep] at h
              injection h with h1 h2
              subst h1
              refine ⟨?_, ?_, ?_⟩
              · intro e he
                rw [hge] at he
                cases he
              · rw [hge]
                exact List.nodup_nil
              intro gen₂
              simp only [ensureEntryUids]
              rw [hget]
          | bool b =>
              have hstep : ensureEntryUids gen (JValue.obj fs) = (JValue.obj fs, false) := by
                simp only [ensureEntryUids]
                rw [hget]
              have hge : getEntriesRef (JValue.obj fs) = [] := by
                simp only [getEntriesRef]
                rw [hget]
              rw [hstep] at h
              injection h with h1 h2
              subst h1
              refine ⟨?_, ?_, ?_⟩
              · intro e he
                rw [hge] at he
                cases he
              · rw [hge]
                exact List.nodup_nil
              intro gen₂
              simp only [ensureEntryUids]
              rw [hget]
          | num n =>
              have hstep : ensureEntryUids gen (JValue.obj fs) = (JValue.obj fs, false) := by
                simp only [ensureEntryUids]
                rw [hget]
              have hge : getEntriesRef (JValue.obj fs) = [] := by
                simp only [getEntriesRef]
                rw [hget]
              rw [hstep] at h
              injection h with h1 h2
              subst h1
              refine ⟨?_, ?_, ?_⟩
              · intro e he
                rw [hge] at he
                cases he
              · rw [hge]
                exact List.nodup_nil
              intro gen₂
              simp only [ensureEntryUids]
              rw [hget]
          | str s =>
              have hstep : ensureEntryUids gen (JValue.obj fs) = (JValue.obj fs, false) := by
                simp only [ensureEntryUids]
                rw [hget]
              have hge : getEntriesRef (JValue.obj fs) = [] := by
                simp only [getEntriesRef]
                rw [hget]
              rw [hstep] at h
              injection h with h1 h2
              subst h1
              refine ⟨?_, ?_, ?_⟩
              · intro e he
                rw [hge] at he
                cases he
              · rw [hge]
                exact List.nodup_nil
              intro gen₂
              simp only [ensureEntryUids]
              rw [hget]
          | arr items =>
              have hge : getEntriesRef (JValue.obj fs) = dictEntries items := by
                simp only [getEntriesRef]
                rw [hget]
              rw [hge] at hfresh hinj
              obtain ⟨⟨items', u', kk, ch0⟩, hrun⟩ :
                  ∃ r, ensureItems gen items [] 0 = r := ⟨_, rfl⟩
              have hstep : ensureEntryUids gen (JValue.obj fs) =
                  (.obj (assocSet fs "entries" (.arr items')), ch0) := by
                simp only [ensureEntryUids]
                rw [hget]
                simp only [hrun]
              rw [hstep] at h
              injection h with h1 h2
              subst h1
              obtain ⟨r1, r2, r3, r4⟩ := ensureItems_run gen items hfresh
                (fun i j hi hj hne => hinj i hi j hj hne) items' u' kk ch0 hrun
              have hget' : assocGet (assocSet fs "entries" (.arr items')) "entries" =
                  some (.arr items') := assocGet_assocSet_self fs "entries" (.arr items')
              have hge' : getEntriesRef (JValue.obj (assocSet fs "entries" (.arr items'))) =
                  dictEntries items' := by
                simp only [getEntriesRef]
                rw [hget']
              refine ⟨?_, ?_, ?_⟩
              · rw [hge']; exact r2
              · rw [hge']; exact r3
              · intro gen₂
                have hn := r4 gen₂ 0
                simp only [ensureEntryUids]
                rw [hget']
                simp only [hn]
                rw [assocSet_assocSet_same]
          | obj efs =>
              have hge : getEntriesRef (JValue.obj fs) =
                  dictEntries (efs.map (fun p => p.2)) := by
                simp only [getEntriesRef]
                rw [hget]
              rw [hge] at hfresh hinj
              obtain ⟨⟨vals', u', kk, ch0⟩, hrun⟩ :
                  ∃ r, ensureItems gen (efs.map (fun p => p.2)) [] 0 = r := ⟨_, rfl⟩
              have hstep : ensureEntryUids gen (JValue.obj fs) =
                  (.obj (assocSet fs "entries"
                    (.obj ((efs.map (fun p => p.1)).zip vals'))), ch0) := by
                simp only [ensureEntryUids]
                rw [hget]
                simp only [hrun]
              rw [hstep] at h
              injection h with h1 h2
              subst h1
              obtain ⟨r1, r2, r3, r4⟩ := ensureItems_run gen (efs.map (fun p => p.2)) hfresh
                (fun i j hi hj hne => hinj i hi j hj hne) vals' u' kk ch0 hrun
              have hlen : vals'.length = (efs.map (fun p => p.1)).length := by
                rw [r1]
                simp
              have hsnd : ((efs.map (fun p => p.1)).zip vals').map (fun p => p.2) = vals' :=
                List.map_snd_zip (efs.map (fun p => p.1)) vals' (le_of_eq hlen)
              have hfst : ((efs.map (fun p => p.1)).zip vals').map (fun p => p.1) =
                  efs.map (fun p => p.1) :=
                List.map_fst_zip (efs.map (fun p => p.1)) vals' (le_of_eq hlen.symm)
              have hget' : assocGet (assocSet fs "entries"
                  (.obj ((efs.map (fun p => p.1)).zip vals'))) "entries" =
                  some (.obj ((efs.map (fun p => p.1)).zip vals')) :=
                assocGet_assocSet_self fs "entries" _
              have hge' : getEntriesRef (JValue.obj (assocSet fs "entries"
                  (.obj ((efs.map (fun p => p.1)).zip vals')))) =
                  dictEntries (((efs.map (fun p => p.1)).zip vals').map (fun p => p.2)) := by
                simp only [getEntriesRef]
                rw [hget']
              rw [hsnd] at hge'
              refine ⟨?_, ?_, ?_⟩
              · rw [hge']; exact r2
              · rw [hge']; exact r3
              · intro gen₂
                have hn := r4 gen₂ 0
                simp only [ensureEntryUids]
                rw [hget']
                simp only [hsnd, hn, hfst]
                rw [assocSet_assocSet_same]

/-- Witness for C4 at a concrete document: a list with a uid-less entry
and a duplicated uid, processed with a concrete fresh generator. -/
theorem C4_witness :
    ((getEntriesRef (ensureEntryUids (fun i => String.append "wi-" (Nat.repr i))
      (JValue.arr [JValue.obj [("text", JValue.str "x")],
        JValue.obj [("st_manager_uid", JValue.str "a")],
        JValue.obj [("st_manager_uid", JValue.str "a")]])).1).map entryUidStr).Nodup :=
  (C4_ensure_entry_uids (fun i => String.append "wi-" (Nat.repr i))
    (JValue.arr [JValue.obj [("text", JValue.str "x")],
      JValue.obj [("st_manager_uid", JValue.str "a")],
      JValue.obj [("st_manager_uid", JValue.str "a")]])
    (by decide) (by decide)).2.1
